import Mathlib

/-!
Verification of the two-pass LLM extraction pipeline of `src/core/ai_extractor.py`.

Texts are modelled as `List Char` (Python `str` is a sequence of code points).
The tiktoken tokenizer behind `_get_token_count` is third-party library code
with no source in this repository; it is modelled as an abstract parameter
`tok : List Char → Nat`, and theorems quantify over it (adding explicit
hypotheses where a property of the tokenizer is needed).  The OpenAI client
behind `_call_llm` is likewise modelled as an abstract gateway function
`gw : content → systemPrompt → response`; `_call_llm` already absorbs every
provider failure into an empty-string response, so an arbitrary total
function is a faithful model of its observable behaviour.  Gateway calls are
made observable by threading an explicit call log (list of
(content, systemPrompt) pairs) through the orchestrator functions.
-/

abbrev Chars := List Char

/-! ## Python string primitives used by the source -/

/-- Whitespace predicate of Python `str.strip()`: code points with the Unicode
whitespace property. -/
def pyIsSpace (c : Char) : Bool :=
  let n := c.toNat
  (9 ≤ n && n ≤ 13) || (28 ≤ n && n ≤ 32) || n = 0x85 || n = 0xA0 || n = 0x1680 ||
    (0x2000 ≤ n && n ≤ 0x200A) || n = 0x2028 || n = 0x2029 || n = 0x202F ||
    n = 0x205F || n = 0x3000

/-- Python `text.strip()`: drop whitespace from both ends. -/
def pyStrip (s : Chars) : Chars :=
  ((s.dropWhile pyIsSpace).reverse.dropWhile pyIsSpace).reverse

/-- Helper of `splitBlocks`; `acc` holds the current block reversed.  Python
`str.split(sep)` scans left to right, consuming non-overlapping occurrences of
the separator. -/
def splitBlocksAux : Chars → Chars → List Chars
  | acc, [] => [acc.reverse]
  | acc, '\n' :: '\n' :: rest => acc.reverse :: splitBlocksAux [] rest
  | acc, c :: rest => splitBlocksAux (c :: acc) rest

/-- Python `text.split('\n\n')` as used at the top of `_chunk_text_by_tokens`.
On the empty string Python returns `[""]`. -/
def splitBlocks (s : Chars) : List Chars :=
  splitBlocksAux [] s

/-- Python `"\n\n".join(blocks)`. -/
def joinBlocks : List Chars → Chars
  | [] => []
  | [b] => b
  | b :: bs => b ++ '\n' :: '\n' :: joinBlocks bs

/-- Concatenation of a list of strings (Python `"".join`). -/
def flattenC : List Chars → Chars
  | [] => []
  | x :: xs => x ++ flattenC xs

/-! ## The chunker `_chunk_text_by_tokens` -/

/-- Fuel-driven core of the force-split loop
`for i in range(0, len(block), char_limit): chunks.append(block[i:i+char_limit])`.
The fuel is instantiated with the length of the block, which suffices whenever
`charLimit > 0` (with `charLimit = 0` Python `range` raises; the source only
calls this with `charLimit = max_tokens * 3` and theorems carry
`0 < max_tokens`). -/
def sliceGo (charLimit : Nat) : Nat → Chars → List Chars
  | 0, _ => []
  | _, [] => []
  | fuel + 1, l => l.take charLimit :: sliceGo charLimit fuel (l.drop charLimit)

/-- Force-split of an oversized block into consecutive `charLimit`-sized
slices. -/
def sliceForce (charLimit : Nat) (l : Chars) : List Chars :=
  sliceGo charLimit l.length l

/-- Loop of `_chunk_text_by_tokens` over `text_blocks`, with the accumulator
variables `current_chunk_blocks` (`cur`) and `current_chunk_tokens` (`curTok`)
made explicit.  Mirrors the Python source line by line:

    for block in text_blocks:
        block_tokens = self._get_token_count(block)
        if block_tokens > max_tokens:
            if current_chunk_blocks:
                chunks.append("\n\n".join(current_chunk_blocks))
                current_chunk_blocks, current_chunk_tokens = [], 0
            char_limit = max_tokens * 3
            for i in range(0, len(block), char_limit):
                chunks.append(block[i:i + char_limit])
            continue
        if current_chunk_tokens + block_tokens > max_tokens and current_chunk_blocks:
            chunks.append("\n\n".join(current_chunk_blocks))
            current_chunk_blocks, current_chunk_tokens = [], 0
        current_chunk_blocks.append(block)
        current_chunk_tokens += self._get_token_count("\n\n".join(current_chunk_blocks))
    if current_chunk_blocks:
        chunks.append("\n\n".join(current_chunk_blocks))

Note the last line of the loop body: the running count is INCREMENTED by the
token count of the whole joined accumulator (`+=`), not assigned. -/
def chunkBlocks (tok : Chars → Nat) (maxTokens : Nat) :
    List Chars → List Chars → Nat → List Chars
  | [], cur, _ => if cur = [] then [] else [joinBlocks cur]
  | b :: bs, cur, curTok =>
    if tok b > maxTokens then
      (if cur = [] then [] else [joinBlocks cur]) ++ sliceForce (maxTokens * 3) b
        ++ chunkBlocks tok maxTokens bs [] 0
    else if curTok + tok b > maxTokens ∧ cur ≠ [] then
      joinBlocks cur :: chunkBlocks tok maxTokens bs [b] (0 + tok (joinBlocks [b]))
    else
      chunkBlocks tok maxTokens bs (cur ++ [b]) (curTok + tok (joinBlocks (cur ++ [b])))

/-- The chunker `_chunk_text_by_tokens(text, max_tokens)`. -/
def chunkTextByTokens (tok : Chars → Nat) (text : Chars) (maxTokens : Nat) : List Chars :=
  chunkBlocks tok maxTokens (splitBlocks text) [] 0

/-- A chunk of the tagged chunker: either a normal chunk remembering the
accumulated paragraph blocks it joins, or the run of slices emitted by the
force-split path for one oversized block. -/
inductive TChunk where
  | normal (blocks : List Chars) : TChunk
  | forced (slices : List Chars) : TChunk
deriving DecidableEq

/-- Rendering of a tagged chunk into the chunk strings the source emits. -/
def renderTChunk : TChunk → List Chars
  | .normal bs => [joinBlocks bs]
  | .forced ss => ss

/-- Rendering of a tagged chunk list. -/
def renderAll : List TChunk → List Chars
  | [] => []
  | t :: ts => renderTChunk t ++ renderAll ts

/-- Paragraph blocks carried by a tagged chunk: a normal chunk carries its
accumulated blocks; a forced run reconstructs its block as the concatenation
of its slices. -/
def blocksOfT : TChunk → List Chars
  | .normal bs => bs
  | .forced ss => [flattenC ss]

/-- Block sequence carried by a tagged chunk list. -/
def blocksAll : List TChunk → List Chars
  | [] => []
  | t :: ts => blocksOfT t ++ blocksAll ts

/-- Tagged version of `chunkBlocks`: identical control flow, but each emitted
chunk is tagged with its provenance (normal accumulation or force-split). -/
def chunkBlocksT (tok : Chars → Nat) (maxTokens : Nat) :
    List Chars → List Chars → Nat → List TChunk
  | [], cur, _ => if cur = [] then [] else [.normal cur]
  | b :: bs, cur, curTok =>
    if tok b > maxTokens then
      (if cur = [] then [] else [.normal cur]) ++ [.forced (sliceForce (maxTokens * 3) b)]
        ++ chunkBlocksT tok maxTokens bs [] 0
    else if curTok + tok b > maxTokens ∧ cur ≠ [] then
      .normal cur :: chunkBlocksT tok maxTokens bs [b] (0 + tok (joinBlocks [b]))
    else
      chunkBlocksT tok maxTokens bs (cur ++ [b]) (curTok + tok (joinBlocks (cur ++ [b])))

/-- Tagged chunker over a whole text. -/
def chunkTextByTokensT (tok : Chars → Nat) (text : Chars) (maxTokens : Nat) : List TChunk :=
  chunkBlocksT tok maxTokens (splitBlocks text) [] 0

/-- Modelled from the spec (section 4.2, step 2): the greedy loop with the
running token count RECOMPUTED over the accumulated blocks joined by the
paragraph separator (assignment instead of the `+=` of the source).  Used to
compare the source against the algorithm the spec describes. -/
def chunkBlocksSpec (tok : Chars → Nat) (maxTokens : Nat) :
    List Chars → List Chars → Nat → List Chars
  | [], cur, _ => if cur = [] then [] else [joinBlocks cur]
  | b :: bs, cur, curTok =>
    if tok b > maxTokens then
      (if cur = [] then [] else [joinBlocks cur]) ++ sliceForce (maxTokens * 3) b
        ++ chunkBlocksSpec tok maxTokens bs [] 0
    else if curTok + tok b > maxTokens ∧ cur ≠ [] then
      joinBlocks cur :: chunkBlocksSpec tok maxTokens bs [b] (tok (joinBlocks [b]))
    else
      chunkBlocksSpec tok maxTokens bs (cur ++ [b]) (tok (joinBlocks (cur ++ [b])))

/-- Spec-described chunker (recomputed running count) over a whole text. -/
def chunkTextByTokensSpec (tok : Chars → Nat) (text : Chars) (maxTokens : Nat) : List Chars :=
  chunkBlocksSpec tok maxTokens (splitBlocks text) [] 0

/-! ## Basic lemmas about the chunker -/

theorem flattenC_append (xs ys : List Chars) :
    flattenC (xs ++ ys) = flattenC xs ++ flattenC ys := by
  induction xs with
  | nil => simp [flattenC]
  | cons x xs ih => simp [flattenC, ih]

theorem sliceGo_flatten (charLimit : Nat) (hcl : 0 < charLimit) :
    ∀ fuel l, l.length ≤ fuel → flattenC (sliceGo charLimit fuel l) = l := by
  intro fuel
  induction fuel with
  | zero =>
    intro l hl
    have : l = [] := List.length_eq_zero.mp (Nat.le_zero.mp hl)
    subst this
    rfl
  | succ fuel ih =>
    intro l hl
    match l with
    | [] => rfl
    | c :: l' =>
      have hlen : ((c :: l').drop charLimit).length ≤ fuel := by
        simp only [List.length_drop]
        have : (c :: l').length = l'.length + 1 := by simp
        omega
      simp only [sliceGo, flattenC, ih _ hlen, List.take_append_drop]

theorem sliceForce_flatten (charLimit : Nat) (hcl : 0 < charLimit) (l : Chars) :
    flattenC (sliceForce charLimit l) = l :=
  sliceGo_flatten charLimit hcl l.length l (Nat.le_refl _)

theorem joinBlocks_append_one (cur : List Chars) (b : Chars) (h : cur ≠ []) :
    joinBlocks (cur ++ [b]) = joinBlocks cur ++ '\n' :: '\n' :: b := by
  induction cur with
  | nil => exact absurd rfl h
  | cons x xs ih =>
    match xs with
    | [] => simp [joinBlocks]
    | y :: ys =>
      have := ih (by simp)
      simp only [List.cons_append, joinBlocks] at this ⊢
      simp [this]

theorem renderAll_append (xs ys : List TChunk) :
    renderAll (xs ++ ys) = renderAll xs ++ renderAll ys := by
  induction xs with
  | nil => simp [renderAll]
  | cons x xs ih => simp [renderAll, ih]

theorem blocksAll_append (xs ys : List TChunk) :
    blocksAll (xs ++ ys) = blocksAll xs ++ blocksAll ys := by
  induction xs with
  | nil => simp [blocksAll]
  | cons x xs ih => simp [blocksAll, ih]

/-- The untagged chunker is the rendering of the tagged one. -/
theorem chunkBlocks_eq_render (tok : Chars → Nat) (maxTokens : Nat) :
    ∀ bs cur curTok,
      chunkBlocks tok maxTokens bs cur curTok =
        renderAll (chunkBlocksT tok maxTokens bs cur curTok) := by
  intro bs
  induction bs with
  | nil =>
    intro cur curTok
    by_cases h : cur = [] <;> simp [chunkBlocks, chunkBlocksT, h, renderAll, renderTChunk]
  | cons b bs ih =>
    intro cur curTok
    by_cases hf : tok b > maxTokens
    · by_cases hc : cur = [] <;>
        simp [chunkBlocks, chunkBlocksT, hf, hc, renderAll_append, renderAll, renderTChunk, ih]
    · by_cases hov : curTok + tok b > maxTokens ∧ cur ≠ []
      · simp [chunkBlocks, chunkBlocksT, hf, hov, renderAll, renderTChunk, ih]
      · simp [chunkBlocks, chunkBlocksT, hf, hov, ih]

/-- Invariant proof for the token bound of normal chunks: if the tokenizer is
subadditive across the paragraph separator, every chunk emitted by the normal
accumulation path re-tokenizes within the budget.  The two invariant premises
mirror the coupled resets of `current_chunk_blocks` and
`current_chunk_tokens` in the source. -/
theorem chunkBlocksT_normal_bound (tok : Chars → Nat) (maxTokens : Nat)
    (hsub : ∀ a b : Chars, tok (a ++ '\n' :: '\n' :: b) ≤ tok a + tok b) :
    ∀ bs cur curTok, (cur = [] → curTok = 0) →
      (cur ≠ [] → tok (joinBlocks cur) ≤ curTok ∧ tok (joinBlocks cur) ≤ maxTokens) →
      ∀ blocks, TChunk.normal blocks ∈ chunkBlocksT tok maxTokens bs cur curTok →
        tok (joinBlocks blocks) ≤ maxTokens := by
  intro bs
  induction bs with
  | nil =>
    intro cur curTok _ hinv blocks hmem
    by_cases hc : cur = []
    · simp [chunkBlocksT, hc] at hmem
    · simp only [chunkBlocksT, if_neg hc, List.mem_singleton] at hmem
      cases hmem
      exact (hinv hc).2
  | cons b bs ih =>
    intro cur curTok hz hinv blocks hmem
    by_cases hf : tok b > maxTokens
    · simp only [chunkBlocksT, if_pos hf, List.mem_append] at hmem
      rcases hmem with (hmem | hmem) | hmem
      · by_cases hc : cur = []
        · simp [hc] at hmem
        · simp only [if_neg hc, List.mem_singleton] at hmem
          cases hmem
          exact (hinv hc).2
      · simp at hmem
      · exact ih [] 0 (fun _ => rfl) (fun h => absurd rfl h) blocks hmem
    · by_cases hov : curTok + tok b > maxTokens ∧ cur ≠ []
      · simp only [chunkBlocksT, if_neg hf, if_pos hov, List.mem_cons] at hmem
        rcases hmem with hmem | hmem
        · cases hmem
          exact (hinv hov.2).2
        · refine ih [b] (0 + tok (joinBlocks [b])) (by simp) (fun _ => ?_) blocks hmem
          constructor
          · omega
          · simpa [joinBlocks] using Nat.le_of_not_lt hf
      · simp only [chunkBlocksT, if_neg hf, if_neg hov] at hmem
        refine ih (cur ++ [b]) (curTok + tok (joinBlocks (cur ++ [b]))) (by simp)
          (fun _ => ?_) blocks hmem
        constructor
        · omega
        · by_cases hc : cur = []
          · subst hc
            simpa [joinBlocks] using Nat.le_of_not_lt hf
          · have hle : curTok + tok b ≤ maxTokens := by
              rcases Decidable.not_and_iff_or_not.mp hov with h | h
              · omega
              · exact absurd hc (by simpa using h)
            calc tok (joinBlocks (cur ++ [b]))
                = tok (joinBlocks cur ++ '\n' :: '\n' :: b) := by
                  rw [joinBlocks_append_one cur b hc]
              _ ≤ tok (joinBlocks cur) + tok b := hsub _ _
              _ ≤ curTok + tok b := by have := (hinv hc).1; omega
              _ ≤ maxTokens := hle

/-- Reconstruction invariant: the block sequence carried by the tagged output
is the pending accumulator followed by the remaining input blocks. -/
theorem chunkBlocksT_blocks (tok : Chars → Nat) (maxTokens : Nat) (hm : 0 < maxTokens) :
    ∀ bs cur curTok,
      blocksAll (chunkBlocksT tok maxTokens bs cur curTok) = cur ++ bs := by
  intro bs
  induction bs with
  | nil =>
    intro cur curTok
    by_cases hc : cur = [] <;> simp [chunkBlocksT, hc, blocksAll, blocksOfT]
  | cons b bs ih =>
    intro cur curTok
    by_cases hf : tok b > maxTokens
    · have hslice : flattenC (sliceForce (maxTokens * 3) b) = b :=
        sliceForce_flatten _ (by omega) b
      by_cases hc : cur = [] <;>
        simp [chunkBlocksT, hf, hc, blocksAll_append, blocksAll, blocksOfT, hslice, ih]
    · by_cases hov : curTok + tok b > maxTokens ∧ cur ≠ []
      · simp [chunkBlocksT, hf, hov, blocksAll, blocksOfT, ih]
      · simp [chunkBlocksT, hf, hov, ih]

/-- Example tokenizer used in witnesses: the number of characters that are not
newlines.  It is additive across the paragraph separator. -/
def countNN (s : Chars) : Nat :=
  (s.filter (fun c => c ≠ '\n')).length

theorem countNN_joinsub (a b : Chars) :
    countNN (a ++ '\n' :: '\n' :: b) ≤ countNN a + countNN b := by
  simp [countNN, List.filter_append]

/-! ## Claims C1, C2, C3, C9 about the chunker -/

/-- C1 (counterexample): with the tokenizer taken as plain character length
(which, like the real BPE tokenizer, is not subadditive across the inserted
`"\n\n"` separator), the chunker emits a NORMAL chunk whose exact token count
exceeds `max_tokens`: for the text `"a\n\nb"` and budget 2 the two
single-token blocks are accumulated (the running check sees 1 + 1 ≤ 2), but
the emitted joined chunk `"a\n\nb"` has 4 tokens. -/
theorem c1_bound_counterexample :
    TChunk.normal [['a'], ['b']] ∈
        chunkTextByTokensT List.length ('a' :: '\n' :: '\n' :: 'b' :: []) 2 ∧
      List.length (joinBlocks [['a'], ['b']]) > 2 ∧
      joinBlocks [['a'], ['b']] ∈ chunkTextByTokens List.length ('a' :: '\n' :: '\n' :: 'b' :: []) 2 := by
  refine ⟨?_, ?_, ?_⟩ <;> decide

/-- C1 (amended): if the tokenizer is subadditive across the paragraph
separator (`tok (a ++ "\n\n" ++ b) ≤ tok a + tok b`), then every chunk the
chunker emits through the normal accumulation path — i.e. not produced by the
force-split path — has exact token count at most `max_tokens`.  Without that
hypothesis on the tokenizer the bound fails (see the counterexample). -/
theorem c1_normal_chunks_within_budget (tok : Chars → Nat) (maxTokens : Nat)
    (text : Chars)
    (hsub : ∀ a b : Chars, tok (a ++ '\n' :: '\n' :: b) ≤ tok a + tok b)
    (blocks : List Chars)
    (hmem : TChunk.normal blocks ∈ chunkTextByTokensT tok text maxTokens) :
    tok (joinBlocks blocks) ≤ maxTokens :=
  chunkBlocksT_normal_bound tok maxTokens hsub (splitBlocks text) [] 0
    (fun _ => rfl) (fun h => absurd rfl h) blocks hmem

/-- C1 (witness): the amended theorem applied to the additive tokenizer
`countNN`, the text `"x\n\ny"` and budget 2, whose tagged chunking is the
single normal chunk `["x", "y"]`. -/
theorem c1_normal_chunks_within_budget_witness :
    countNN (joinBlocks [['x'], ['y']]) ≤ 2 :=
  c1_normal_chunks_within_budget countNN 2 ('x' :: '\n' :: '\n' :: 'y' :: [])
    countNN_joinsub [['x'], ['y']] (by decide)

/-- C2 (code bug, evaluation at the failing input): with the tokenizer
`countNN` — which is exactly additive across the paragraph separator — the
text `"a\n\nb\n\nc"` has 3 tokens, within the budget 3, yet the source
chunker splits it into TWO chunks, because `current_chunk_tokens` is
incremented (`+=`) by the token count of the whole joined accumulator at
every step instead of being assigned it: after two blocks the running count
is `tok("a") + tok("a\n\nb") = 3`, so block `"c"` triggers a flush.  The
spec-described recomputed running count (section 4.2 step 2) returns the
single normalized chunk. -/
theorem c2_single_chunk_eval :
    countNN ('a' :: '\n' :: '\n' :: 'b' :: '\n' :: '\n' :: 'c' :: []) ≤ 3 ∧
      chunkTextByTokens countNN ('a' :: '\n' :: '\n' :: 'b' :: '\n' :: '\n' :: 'c' :: []) 3 =
        [('a' :: '\n' :: '\n' :: 'b' :: []), (['c'] : Chars)] ∧
      chunkTextByTokensSpec countNN ('a' :: '\n' :: '\n' :: 'b' :: '\n' :: '\n' :: 'c' :: []) 3 =
        [('a' :: '\n' :: '\n' :: 'b' :: '\n' :: '\n' :: 'c' :: [])] := by
  refine ⟨?_, ?_, ?_⟩ <;> decide

/-- C3: the chunk list the source emits is the rendering of a tagged
decomposition, and concatenating in order the paragraph blocks of that
decomposition — where a force-split run contributes the concatenation of its
slices — reconstructs the original block sequence of the input exactly: no
block is dropped, reordered, or duplicated. -/
theorem c3_blocks_reconstruction (tok : Chars → Nat) (maxTokens : Nat)
    (hm : 0 < maxTokens) (text : Chars) :
    chunkTextByTokens tok text maxTokens = renderAll (chunkTextByTokensT tok text maxTokens) ∧
      blocksAll (chunkTextByTokensT tok text maxTokens) = splitBlocks text :=
  ⟨chunkBlocks_eq_render tok maxTokens (splitBlocks text) [] 0,
   chunkBlocksT_blocks tok maxTokens hm (splitBlocks text) [] 0⟩

/-- C3 (witness): the reconstruction theorem applied to character-length
tokenization of `"ab\n\ncd"` with budget 1, an input that routes both blocks
through the force-split path. -/
theorem c3_blocks_reconstruction_witness :
    chunkTextByTokens List.length ('a' :: 'b' :: '\n' :: '\n' :: 'c' :: 'd' :: []) 1 =
        renderAll (chunkTextByTokensT List.length ('a' :: 'b' :: '\n' :: '\n' :: 'c' :: 'd' :: []) 1) ∧
      blocksAll (chunkTextByTokensT List.length ('a' :: 'b' :: '\n' :: '\n' :: 'c' :: 'd' :: []) 1) =
        splitBlocks ('a' :: 'b' :: '\n' :: '\n' :: 'c' :: 'd' :: []) :=
  c3_blocks_reconstruction List.length 1 (by decide) _

/-- C9 (counterexample): on the empty input the chunker does NOT return an
empty sequence: Python `"".split("\n\n")` is `[""]`, the empty block is
accumulated (its token count 0 is within any positive budget), and the final
flush emits it, so the result is one empty chunk `[""]`. -/
theorem c9_empty_input_counterexample :
    chunkTextByTokens List.length [] 5 = [([] : Chars)] ∧
      chunkTextByTokens List.length [] 5 ≠ [] := by
  refine ⟨?_, ?_⟩ <;> decide

/-- C9 (amended): on the empty input the chunker returns exactly one chunk,
the empty string, for every tokenizer that gives the empty string a token
count within the budget (the real tokenizer gives it 0). -/
theorem c9_empty_input_single_empty_chunk (tok : Chars → Nat) (maxTokens : Nat)
    (h : tok [] ≤ maxTokens) :
    chunkTextByTokens tok [] maxTokens = [([] : Chars)] := by
  have hnf : ¬ tok ([] : Chars) > maxTokens := Nat.not_lt.mpr h
  simp [chunkTextByTokens, splitBlocks, splitBlocksAux, chunkBlocks, hnf, joinBlocks]

/-- C9 (witness): the amended theorem applied to character-length
tokenization with budget 0. -/
theorem c9_empty_input_single_empty_chunk_witness :
    chunkTextByTokens List.length [] 0 = [([] : Chars)] :=
  c9_empty_input_single_empty_chunk List.length 0 (by decide)

/-! ## JSON values, serialization (`json.dumps(..., indent=2)`) and parsing
(`json.loads`)

Model of the Python `json` module as used by the source.  Numbers are kept as
a decimal mantissa/exponent pair `(m, e)` denoting `m * 10^e`, which carries
both Python ints (`e = 0`) and the float literals `json.loads` accepts;
the serializer prints `m` for `e = 0` and the scientific literal `m e e`
otherwise (Python prints floats with its shortest-repr algorithm, a purely
textual difference that nothing in the pipeline observes, since the dumped
text is only re-tokenized and re-loaded).  Divergences from CPython kept out
of the model, none of them reachable in the flows the claims exercise:
`NaN`/`Infinity` literals are rejected, duplicate object keys are kept as an
association list instead of collapsed to the last value, and a lone escaped
surrogate makes the parse fail (a Lean `Char` cannot carry it). -/
inductive Json where
  | null : Json
  | bool (b : Bool) : Json
  | num (m e : Int) : Json
  | str (s : Chars) : Json
  | arr (elems : List Json) : Json
  | obj (members : List (Chars × Json)) : Json

/-- Opening brace character. -/
def lbrace : Char := Char.ofNat 123

/-- Closing brace character. -/
def rbrace : Char := Char.ofNat 125

/-- Indentation emitted by `json.dumps(..., indent=2)` at nesting level
`lvl`. -/
def indentSp (lvl : Nat) : Chars := List.replicate (2 * lvl) ' '

/-- Decimal digits of a natural number, most significant first, with an
explicit fuel argument (any fuel above the number works; see
`natDigitsGo_fuel_irrel`). -/
def natDigitsGo : Nat → Nat → Chars
  | 0, _ => []
  | fuel + 1, n =>
    if n < 10 then [Char.ofNat (48 + n)]
    else natDigitsGo fuel (n / 10) ++ [Char.ofNat (48 + n % 10)]

/-- Decimal representation of a natural number (Python `str(n)` for
`n ≥ 0`). -/
def natToDigits (n : Nat) : Chars := natDigitsGo (n + 1) n

/-- Decimal representation of an integer (Python `str(m)`). -/
def intRepr (m : Int) : Chars :=
  if m < 0 then '-' :: natToDigits m.natAbs else natToDigits m.natAbs

/-- Serialization of a number value: plain integer for exponent 0, otherwise
mantissa followed by a scientific exponent. -/
def ppNum (m e : Int) : Chars :=
  if e = 0 then intRepr m else intRepr m ++ 'e' :: intRepr e

/-- Lowercase hexadecimal digit, as emitted by the `\uXXXX` escapes of
`json.dumps` (CPython uses `%04x`). -/
def toHexDig (d : Nat) : Char :=
  if d < 10 then Char.ofNat (48 + d) else Char.ofNat (87 + d)

/-- Four-digit lowercase hexadecimal rendering of `n < 0x10000`. -/
def hex4 (n : Nat) : Chars :=
  [toHexDig (n / 4096 % 16), toHexDig (n / 256 % 16), toHexDig (n / 16 % 16), toHexDig (n % 16)]

/-- Escape of one character inside a JSON string, following the CPython
encoder with its default `ensure_ascii=True`: the two-character escapes for
the common controls, backslash and quote, `\u00XX` for the remaining
controls, ASCII printable characters verbatim, `\uXXXX` for every character
above `0x7e`, and a surrogate pair for characters beyond the basic
multilingual plane. -/
def escChar (c : Char) : Chars :=
  if c = '"' then ['\\', '"']
  else if c = '\\' then ['\\', '\\']
  else if c = '\n' then ['\\', 'n']
  else if c = '\r' then ['\\', 'r']
  else if c = '\t' then ['\\', 't']
  else if c = Char.ofNat 8 then ['\\', 'b']
  else if c = Char.ofNat 12 then ['\\', 'f']
  else if c.toNat < 0x20 then '\\' :: 'u' :: hex4 c.toNat
  else if c.toNat < 0x7f then [c]
  else if c.toNat < 0x10000 then '\\' :: 'u' :: hex4 c.toNat
  else ('\\' :: 'u' :: hex4 (0xD800 + (c.toNat - 0x10000) / 0x400))
    ++ '\\' :: 'u' :: hex4 (0xDC00 + (c.toNat - 0x10000) % 0x400)

/-- Escape of a whole string body. -/
def escStr : Chars → Chars
  | [] => []
  | c :: cs => escChar c ++ escStr cs

/-- Serialization of a JSON string literal. -/
def ppString (s : Chars) : Chars := '"' :: escStr s ++ ['"']

mutual

/-- Serialization of a JSON value at nesting level `lvl`, matching
`json.dumps(value, indent=2)`: empty containers render inline as `[]` / the
empty braces, non-empty containers put every item on its own line indented by
`2 * (lvl + 1)` spaces, items are separated by a comma, and a key is followed
by a colon and one space. -/
def ppJson : Json → Nat → Chars
  | .null, _ => ['n', 'u', 'l', 'l']
  | .bool true, _ => ['t', 'r', 'u', 'e']
  | .bool false, _ => ['f', 'a', 'l', 's', 'e']
  | .num m e, _ => ppNum m e
  | .str s, _ => ppString s
  | .arr [], _ => ['[', ']']
  | .arr (x :: xs), lvl =>
      '[' :: '\n' :: (indentSp (lvl + 1) ++ ppJson x (lvl + 1) ++ ppATail xs (lvl + 1))
        ++ '\n' :: (indentSp lvl ++ [']'])
  | .obj [], _ => [lbrace, rbrace]
  | .obj ((k, v) :: ms), lvl =>
      lbrace :: '\n' :: (indentSp (lvl + 1) ++ ppString k ++ ':' :: ' ' ::
        ppJson v (lvl + 1) ++ ppOTail ms (lvl + 1)) ++ '\n' :: (indentSp lvl ++ [rbrace])

/-- Serialization of the remaining elements of a non-empty array. -/
def ppATail : List Json → Nat → Chars
  | [], _ => []
  | y :: ys, lvl => ',' :: '\n' :: (indentSp lvl ++ ppJson y lvl ++ ppATail ys lvl)

/-- Serialization of the remaining members of a non-empty object. -/
def ppOTail : List (Chars × Json) → Nat → Chars
  | [], _ => []
  | (k, v) :: ms, lvl =>
      ',' :: '\n' :: (indentSp lvl ++ ppString k ++ ':' :: ' ' :: ppJson v lvl ++ ppOTail ms lvl)

end

/-- Top-level `json.dumps(value, indent=2)`. -/
def jsonDumps (v : Json) : Chars := ppJson v 0

/-- Whitespace accepted between JSON tokens by the `json` module (space, tab,
newline, carriage return). -/
def jWs (c : Char) : Bool := c = ' ' || c = '\t' || c = '\n' || c = '\r'

/-- Skip inter-token whitespace. -/
def skipWs (s : Chars) : Chars := s.dropWhile jWs

/-- Value of a hexadecimal digit (both cases accepted, as by CPython). -/
def fromHexDig (c : Char) : Option Nat :=
  if '0' ≤ c ∧ c ≤ '9' then some (c.toNat - 48)
  else if 'a' ≤ c ∧ c ≤ 'f' then some (c.toNat - 87)
  else if 'A' ≤ c ∧ c ≤ 'F' then some (c.toNat - 55)
  else none

/-- Decode table of the two-character escapes, as in the CPython scanner
(BACKSLASH dictionary). -/
def escDecode (e : Char) : Option Char :=
  if e = '"' then some '"'
  else if e = '\\' then some '\\'
  else if e = '/' then some '/'
  else if e = 'b' then some (Char.ofNat 8)
  else if e = 'f' then some (Char.ofNat 12)
  else if e = 'n' then some '\n'
  else if e = 'r' then some '\r'
  else if e = 't' then some '\t'
  else none

/-! Parser for the body of a JSON string literal, the opening quote already
consumed; returns the decoded characters and the input after the closing
quote.  Mirrors the strict CPython scanner: raw control characters are
rejected, the standard two-character escapes and `\uXXXX` are decoded, and a
high surrogate must be followed by an escaped low surrogate (CPython would
keep a lone surrogate in the `str`; a Lean `Char` cannot, so that corner
fails the parse instead — unreachable from serializer output).  The scanner
is split into one function per scanning position (after a backslash, after
`\u`, after a high surrogate), each consuming one unit of fuel, so any fuel
above the input length suffices. -/
mutual

/-- Scanner state at the top of the string-literal loop. -/
def parseStrBody : Nat → Chars → Option (Chars × Chars)
  | 0, _ => none
  | fuel + 1, s =>
    match s with
    | [] => none
    | c :: rest =>
      if c = '"' then some ([], rest)
      else if c = '\\' then psbEscape fuel rest
      else if c.toNat < 0x20 then none
      else (parseStrBody fuel rest).map (fun p => (c :: p.1, p.2))

/-- Scanner state right after a backslash. -/
def psbEscape : Nat → Chars → Option (Chars × Chars)
  | 0, _ => none
  | fuel + 1, s =>
    match s with
    | [] => none
    | e :: rest2 =>
      if e = 'u' then psbHex fuel rest2
      else
        match escDecode e with
        | some ch => (parseStrBody fuel rest2).map (fun p => (ch :: p.1, p.2))
        | none => none

/-- Scanner state right after a `\u`, expecting four hexadecimal digits. -/
def psbHex : Nat → Chars → Option (Chars × Chars)
  | 0, _ => none
  | fuel + 1, s =>
    match s with
    | a :: b :: c2 :: d :: rest3 =>
      (match fromHexDig a, fromHexDig b, fromHexDig c2, fromHexDig d with
      | some da, some db, some dc, some dd =>
        let code := ((da * 16 + db) * 16 + dc) * 16 + dd
        if 0xD800 ≤ code ∧ code ≤ 0xDBFF then psbPair code fuel rest3
        else if 0xDC00 ≤ code ∧ code ≤ 0xDFFF then none
        else (parseStrBody fuel rest3).map (fun p => (Char.ofNat code :: p.1, p.2))
      | _, _, _, _ => none)
    | _ => none

/-- Scanner state right after a decoded high surrogate, expecting the escaped
low surrogate of the pair. -/
def psbPair (code : Nat) : Nat → Chars → Option (Chars × Chars)
  | 0, _ => none
  | fuel + 1, s =>
    match s with
    | '\\' :: 'u' :: a2 :: b2 :: c3 :: d2 :: rest4 =>
      (match fromHexDig a2, fromHexDig b2, fromHexDig c3, fromHexDig d2 with
      | some ea, some eb, some ec, some ed =>
        let code2 := ((ea * 16 + eb) * 16 + ec) * 16 + ed
        if 0xDC00 ≤ code2 ∧ code2 ≤ 0xDFFF then
          (parseStrBody fuel rest4).map (fun p =>
            (Char.ofNat (0x10000 + (code - 0xD800) * 0x400 + (code2 - 0xDC00)) :: p.1, p.2))
        else none
      | _, _, _, _ => none)
    | _ => none

end

/-- Parser for a JSON string body with the fuel instantiated to the input
length (each step consumes at least one character, so this always
suffices). -/
def parseStr (s : Chars) : Option (Chars × Chars) := parseStrBody (s.length + 1) s

/-- Value of a string of decimal digits. -/
def digitsToNat (ds : Chars) : Nat :=
  ds.foldl (fun a c => a * 10 + (c.toNat - 48)) 0

/-- Parser for the optional exponent part of a JSON number, given the
mantissa and decimal exponent accumulated so far. -/
def parseExpPart (m : Int) (e0 : Int) (s : Chars) : Option (Json × Chars) :=
  if s.head? = some 'e' ∨ s.head? = some 'E' then
    let t := s.tail
    let esign : Bool := t.head? = some '-'
    let t1 := if t.head? = some '-' || t.head? = some '+' then t.tail else t
    let eds := t1.takeWhile Char.isDigit
    let s4 := t1.dropWhile Char.isDigit
    if eds = [] then none
    else
      some (.num m (e0 + (if esign then -(digitsToNat eds : Int) else (digitsToNat eds : Int))), s4)
  else some (.num m e0, s)

/-- Parser for a JSON number, following the grammar of the `json` module:
optional minus sign, an integer part without leading zeros, an optional
fraction with at least one digit, an optional exponent with at least one
digit (leading zeros allowed there). -/
def parseNumber (s : Chars) : Option (Json × Chars) :=
  let neg : Bool := s.head? = some '-'
  let s1 := if s.head? = some '-' then s.tail else s
  let ds := s1.takeWhile Char.isDigit
  let s2 := s1.dropWhile Char.isDigit
  if ds = [] then none
  else if 1 < ds.length ∧ ds.head? = some '0' then none
  else
    let ip := digitsToNat ds
    if s2.head? = some '.' then
      let fs := s2.tail.takeWhile Char.isDigit
      let s3 := s2.tail.dropWhile Char.isDigit
      if fs = [] then none
      else
        parseExpPart (if neg then -((ip * 10 ^ fs.length + digitsToNat fs : Nat) : Int)
            else ((ip * 10 ^ fs.length + digitsToNat fs : Nat) : Int))
          (-(fs.length : Int)) s3
    else parseExpPart (if neg then -(ip : Int) else (ip : Int)) 0 s2

/-- Mode of the fuel-driven JSON parser: a value, the element loop of a
non-empty array, or the member loop of a non-empty object (the accumulators
hold what was already parsed, in reverse). -/
inductive JMode where
  | val : JMode
  | arrTail (acc : List Json) : JMode
  | objTail (acc : List (Chars × Json)) : JMode

/-- Fuel-driven recursive-descent JSON parser (one unit of fuel per nesting
level and per container item; any fuel above the input length suffices). -/
def parseJ : Nat → JMode → Chars → Option (Json × Chars)
  | 0, _, _ => none
  | fuel + 1, .val, s =>
    match skipWs s with
    | [] => none
    | '"' :: r => (parseStr r).map (fun p => (.str p.1, p.2))
    | '[' :: r =>
      if (skipWs r).head? = some ']' then some (.arr [], (skipWs r).tail)
      else parseJ fuel (.arrTail []) r
    | 'n' :: 'u' :: 'l' :: 'l' :: r2 => some (.null, r2)
    | 't' :: 'r' :: 'u' :: 'e' :: r2 => some (.bool true, r2)
    | 'f' :: 'a' :: 'l' :: 's' :: 'e' :: r2 => some (.bool false, r2)
    | c :: r =>
      if c = lbrace then
        if (skipWs r).head? = some rbrace then some (.obj [], (skipWs r).tail)
        else parseJ fuel (.objTail []) r
      else parseNumber (c :: r)
  | fuel + 1, .arrTail acc, s =>
    match parseJ fuel .val s with
    | some (v, s1) =>
      match skipWs s1 with
      | ',' :: r => parseJ fuel (.arrTail (v :: acc)) r
      | ']' :: r => some (.arr (v :: acc).reverse, r)
      | _ => none
    | none => none
  | fuel + 1, .objTail acc, s =>
    match skipWs s with
    | c :: r =>
      if c = '"' then
        match parseStr r with
        | some (k, s1) =>
          match skipWs s1 with
          | ':' :: s2 =>
            match parseJ fuel .val s2 with
            | some (v, s3) =>
              match skipWs s3 with
              | ',' :: r2 => parseJ fuel (.objTail ((k, v) :: acc)) r2
              | c2 :: r2 =>
                if c2 = rbrace then some (.obj ((k, v) :: acc).reverse, r2) else none
              | [] => none
            | none => none
          | _ => none
        | none => none
      else none
    | [] => none

/-- Top-level `json.loads`: parse one value, then require only trailing
whitespace. -/
def jsonLoads (s : Chars) : Option Json :=
  match parseJ (s.length + 1) .val s with
  | some (v, r) => if skipWs r = [] then some v else none
  | none => none

/-! ## The response parser `_parse_llm_output` -/

/-- Scan of `for key, value in data.items()` for the first value that is a
list. -/
def firstListVal : List (Chars × Json) → Option (List Json)
  | [] => none
  | (_, .arr l) :: _ => some l
  | _ :: t => firstListVal t

/-- Python `key in data` on a decoded JSON object. -/
def containsKey (ms : List (Chars × Json)) (k : Chars) : Bool :=
  ms.any (fun p => p.1 = k)

/-- The response parser `_parse_llm_output(response_text)`.  An empty
response, a response that fails to decode as JSON, or a decoded value in no
recognized shape all yield the empty list (the source logs and returns `[]`
instead of raising); a decoded list is returned as is; a decoded mapping
yields its first list value if any, else is wrapped as a single module when
it has both a `module` and a `Description` key (capital D, matching the
extraction prompt), else yields the empty list. -/
def parseLLMOutput (responseText : Chars) : List Json :=
  if responseText = [] then []
  else
    match jsonLoads responseText with
    | none => []
    | some data =>
      match data with
      | .arr l => l
      | .obj kvs =>
        match firstListVal kvs with
        | some l => l
        | none =>
          if containsKey kvs "module".toList && containsKey kvs "Description".toList then
            [.obj kvs]
          else []
      | _ => []

/-! ## The two-pass orchestrator -/

/-- The fixed system prompt of `_get_extraction_prompt`. -/
def getExtractionPrompt : Chars :=
  ("\n        You are an AI assistant analyzing a piece of website documentation. Your task is to identify and extract any product features (modules) and their specific functionalities (submodules) from the provided text.\n        Structure your output as a valid JSON. The JSON should be a list of objects.\n        Each object must have \"module\" (string), \"Description\" (string), and \"Submodules\" (an object).\n        Extract information ONLY from the provided text. If you find no modules, return an empty list [].\n        ").toList

/-- The fixed system prompt of `_get_synthesis_prompt`. -/
def getSynthesisPrompt : Chars :=
  ("\n        You are a data synthesis AI. You will be given a JSON list of \"modules\" extracted from a website\x27s documentation. This list is messy, containing many duplicates, fragments, and overlapping information because it was generated from small chunks of the full text.\n        Your task is to process this entire JSON list and produce a single, clean, de-duplicated, and logically structured final JSON list of modules.\n        - Merge duplicate modules (e.g., \"Account Settings\" and \"Settings, Account\").\n        - Combine descriptions for the same module to be more comprehensive.\n        - Merge submodules for the same module and de-duplicate them.\n        - Remove any irrelevant or clearly non-module entries.\n        - Ensure the final output is a valid JSON list of objects, with \"module\", \"Description\", and \"Submodules\" keys.\n        ").toList

/-- One Gateway invocation, recorded as (user content, system prompt).  The
`_call_llm` wrapper itself is modelled by the abstract gateway function: it
returns the response text, or the empty string on any provider failure. -/
abbrev GatewayCall := Chars × Chars

/-- Pass-1 loop of `_extract_raw_modules_from_chunks` over the chunk list:
for each chunk call the Gateway with the extraction prompt, parse the
response, and extend the accumulated raw list when the parse is non-empty
(`if parsed_chunk_modules:`).  Returns the concatenated raw modules and the
log of Gateway calls made, in order. -/
def extractRawLoop (gw : Chars → Chars → Chars) : List Chars → List Json × List GatewayCall
  | [] => ([], [])
  | c :: cs =>
    let responseText := gw c getExtractionPrompt
    let parsed := parseLLMOutput responseText
    let rest := extractRawLoop gw cs
    ((if parsed.isEmpty then [] else parsed) ++ rest.1, (c, getExtractionPrompt) :: rest.2)

/-- `_extract_raw_modules_from_chunks(text)`: chunk the text at the token
budget, run the Pass-1 loop, and return
`json.dumps(all_raw_modules, indent=2)` together with the call log. -/
def extractRawModulesFromChunks (tok : Chars → Nat) (gw : Chars → Chars → Chars)
    (maxInputTokens : Nat) (text : Chars) : Chars × List GatewayCall :=
  let chunks := chunkTextByTokens tok text maxInputTokens
  let r := extractRawLoop gw chunks
  (jsonDumps (.arr r.1), r.2)

/-- Python `json.loads(raw_modules_json)` in the oversize fallback of
`_synthesize_and_clean_modules`.  In the source this string is always the
dump of a list, so the parse always yields a list; the other branches
totalize the model and are unreachable from `extract`. -/
def jsonLoadsList (s : Chars) : List Json :=
  match jsonLoads s with
  | some (.arr l) => l
  | _ => []

/-- `_synthesize_and_clean_modules(raw_modules_json)`: if the serialized raw
list exceeds the token budget, return it re-loaded (the explicit fallback),
making no Gateway call; otherwise make the single Pass-2 Gateway call with
the synthesis prompt and return its parsed response. -/
def synthesizeAndCleanModules (tok : Chars → Nat) (gw : Chars → Chars → Chars)
    (maxInputTokens : Nat) (rawModulesJson : Chars) : List Json × List GatewayCall :=
  let numTokens := tok rawModulesJson
  if numTokens > maxInputTokens then
    (jsonLoadsList rawModulesJson, [])
  else
    let finalResponseText := gw rawModulesJson getSynthesisPrompt
    (parseLLMOutput finalResponseText, [(rawModulesJson, getSynthesisPrompt)])

/-- `extract(consolidated_text)`: empty or whitespace-only input returns the
empty list at once with no Gateway call; otherwise run Pass 1; if it yields
no modules (empty or `"[]"` serialization) return the empty list; otherwise
run Pass 2 and return its result.  The second component is the full Gateway
call log. -/
def extract (tok : Chars → Nat) (gw : Chars → Chars → Chars)
    (maxInputTokens : Nat) (consolidatedText : Chars) : List Json × List GatewayCall :=
  if pyStrip consolidatedText = [] then ([], [])
  else
    let p1 := extractRawModulesFromChunks tok gw maxInputTokens consolidatedText
    if p1.1 = [] ∨ p1.1 = "[]".toList then ([], p1.2)
    else
      let p2 := synthesizeAndCleanModules tok gw maxInputTokens p1.1
      (p2.1, p1.2 ++ p2.2)

/-! ## Round-trip of the JSON serializer through the parser

These lemmas establish `jsonLoads (jsonDumps v) = some v`, which is the
mathematical content of the oversize fallback of
`_synthesize_and_clean_modules` returning the Pass-1 raw list unmodified. -/

theorem char_valid_range (c : Char) :
    c.toNat < 0xD800 ∨ (0xDFFF < c.toNat ∧ c.toNat < 0x110000) := by
  rcases c.valid with h | ⟨h1, h2⟩
  · exact Or.inl (UInt32.toNat_lt_of_lt (by decide) h)
  · exact Or.inr ⟨UInt32.lt_toNat_of_lt (by decide) h1, UInt32.toNat_lt_of_lt (by decide) h2⟩

theorem natDigitsGo_fuel : ∀ n f f', n < f → n < f' →
    natDigitsGo f n = natDigitsGo f' n := by
  intro n
  induction n using Nat.strong_induction_on with
  | _ n ih =>
    intro f f' hf hf'
    match f, f' with
    | f + 1, f' + 1 =>
      simp only [natDigitsGo]
      by_cases h : n < 10
      · simp [h]
      · simp only [if_neg h]
        rw [ih (n / 10) (by omega) f f' (by omega) (by omega)]

theorem natToDigits_lt (n : Nat) (h : n < 10) :
    natToDigits n = [Char.ofNat (48 + n)] := by
  simp [natToDigits, natDigitsGo, h]

theorem natToDigits_ge (n : Nat) (h : ¬ n < 10) :
    natToDigits n = natToDigits (n / 10) ++ [Char.ofNat (48 + n % 10)] := by
  have : natDigitsGo n (n / 10) = natDigitsGo (n / 10 + 1) (n / 10) :=
    natDigitsGo_fuel (n / 10) n (n / 10 + 1) (by omega) (by omega)
  simp only [natToDigits, natDigitsGo, if_neg h, this]

theorem digitChar_isDigit (d : Nat) (h : d < 10) :
    (Char.ofNat (48 + d)).isDigit = true := by
  interval_cases d <;> decide

theorem digitChar_toNat (d : Nat) (h : d < 10) :
    (Char.ofNat (48 + d)).toNat = 48 + d := by
  interval_cases d <;> decide

theorem natToDigits_all_digits (n : Nat) : ∀ c ∈ natToDigits n, c.isDigit = true := by
  induction n using Nat.strong_induction_on with
  | _ n ih =>
    by_cases h : n < 10
    · rw [natToDigits_lt n h]
      intro c hc
      simp at hc
      subst hc
      exact digitChar_isDigit n h
    · rw [natToDigits_ge n h]
      intro c hc
      rcases List.mem_append.mp hc with hc | hc
      · exact ih (n / 10) (by omega) c hc
      · simp at hc
        subst hc
        exact digitChar_isDigit (n % 10) (by omega)

theorem natToDigits_ne_nil (n : Nat) : natToDigits n ≠ [] := by
  by_cases h : n < 10
  · rw [natToDigits_lt n h]; simp
  · rw [natToDigits_ge n h]; simp

theorem natToDigits_head_ne_zero (n : Nat) (hn : 1 ≤ n) :
    ∀ c, (natToDigits n).head? = some c → c ≠ '0' := by
  induction n using Nat.strong_induction_on with
  | _ n ih =>
    intro c hc
    by_cases h : n < 10
    · rw [natToDigits_lt n h] at hc
      simp at hc
      subst hc
      interval_cases n <;> simp_all
    · rw [natToDigits_ge n h] at hc
      rw [List.head?_append_of_ne_nil _ (natToDigits_ne_nil (n / 10))] at hc
      exact ih (n / 10) (by omega) (by omega) c hc

theorem digitsToNat_append_one (xs : Chars) (c : Char) :
    digitsToNat (xs ++ [c]) = digitsToNat xs * 10 + (c.toNat - 48) := by
  simp [digitsToNat, List.foldl_append]

theorem digitsToNat_natToDigits (n : Nat) : digitsToNat (natToDigits n) = n := by
  induction n using Nat.strong_induction_on with
  | _ n ih =>
    by_cases h : n < 10
    · rw [natToDigits_lt n h]
      simp [digitsToNat, digitChar_toNat n h]
    · rw [natToDigits_ge n h, digitsToNat_append_one, ih (n / 10) (by omega),
        digitChar_toNat (n % 10) (by omega)]
      omega

theorem takeWhile_digits_of_append (ds rest : Chars)
    (h1 : ∀ c ∈ ds, c.isDigit = true)
    (h2 : ∀ c, rest.head? = some c → c.isDigit = false) :
    (ds ++ rest).takeWhile Char.isDigit = ds ∧
      (ds ++ rest).dropWhile Char.isDigit = rest := by
  induction ds with
  | nil =>
    match rest with
    | [] => exact ⟨rfl, rfl⟩
    | c :: t =>
      have := h2 c rfl
      simp [List.takeWhile, List.dropWhile, this]
  | cons d ds ih =>
    have hd : d.isDigit = true := h1 d (by simp)
    have := ih (fun c hc => h1 c (by simp [hc]))
    simp [List.takeWhile, List.dropWhile, hd, this.1, this.2]

theorem fromHexDig_toHexDig (d : Nat) (h : d < 16) :
    fromHexDig (toHexDig d) = some d := by
  interval_cases d <;> decide



theorem parseStrBody_u_escape (fuel t : Nat) (ht : t < 65536) (hs : t < 0xD800 ∨ 0xDFFF < t)
    (s : Chars) :
    parseStrBody (fuel + 3) ('\\' :: 'u' :: (hex4 t ++ s)) =
      (parseStrBody fuel s).map (fun p => (Char.ofNat t :: p.1, p.2)) := by
  have e1 := fromHexDig_toHexDig (t / 4096 % 16) (Nat.mod_lt _ (by omega))
  have e2 := fromHexDig_toHexDig (t / 256 % 16) (Nat.mod_lt _ (by omega))
  have e3 := fromHexDig_toHexDig (t / 16 % 16) (Nat.mod_lt _ (by omega))
  have e4 := fromHexDig_toHexDig (t % 16) (Nat.mod_lt _ (by omega))
  have hcode : ((t / 4096 % 16 * 16 + t / 256 % 16) * 16 + t / 16 % 16) * 16 + t % 16 = t := by
    omega
  have hs1 : ¬ (55296 ≤ t ∧ t ≤ 56319) := by omega
  have hs2 : ¬ (56320 ≤ t ∧ t ≤ 57343) := by omega
  show parseStrBody ((fuel + 2) + 1) ('\\' :: 'u' :: (hex4 t ++ s)) = _
  rw [parseStrBody]
  simp only [Char.reduceEq, reduceIte]
  show psbEscape ((fuel + 1) + 1) ('u' :: (hex4 t ++ s)) = _
  rw [psbEscape]
  simp only [Char.reduceEq, reduceIte]
  simp only [hex4, List.cons_append, List.nil_append]
  rw [psbHex]
  simp only [e1, e2, e3, e4]
  simp [hcode, hs1, hs2]

theorem parseStrBody_pair_escape (fuel t : Nat) (hlo : 0x10000 ≤ t) (hhi : t < 0x110000)
    (s : Chars) :
    parseStrBody (fuel + 4) ('\\' :: 'u' :: (hex4 (0xD800 + (t - 0x10000) / 0x400)
        ++ ('\\' :: 'u' :: (hex4 (0xDC00 + (t - 0x10000) % 0x400) ++ s)))) =
      (parseStrBody fuel s).map (fun p => (Char.ofNat t :: p.1, p.2)) := by
  set hi := 0xD800 + (t - 0x10000) / 0x400 with hhi_def
  set lo := 0xDC00 + (t - 0x10000) % 0x400 with hlo_def
  have e1 := fromHexDig_toHexDig (hi / 4096 % 16) (Nat.mod_lt _ (by omega))
  have e2 := fromHexDig_toHexDig (hi / 256 % 16) (Nat.mod_lt _ (by omega))
  have e3 := fromHexDig_toHexDig (hi / 16 % 16) (Nat.mod_lt _ (by omega))
  have e4 := fromHexDig_toHexDig (hi % 16) (Nat.mod_lt _ (by omega))
  have f1 := fromHexDig_toHexDig (lo / 4096 % 16) (Nat.mod_lt _ (by omega))
  have f2 := fromHexDig_toHexDig (lo / 256 % 16) (Nat.mod_lt _ (by omega))
  have f3 := fromHexDig_toHexDig (lo / 16 % 16) (Nat.mod_lt _ (by omega))
  have f4 := fromHexDig_toHexDig (lo % 16) (Nat.mod_lt _ (by omega))
  have hcode : ((hi / 4096 % 16 * 16 + hi / 256 % 16) * 16 + hi / 16 % 16) * 16 + hi % 16 = hi := by
    omega
  have hcode2 : ((lo / 4096 % 16 * 16 + lo / 256 % 16) * 16 + lo / 16 % 16) * 16 + lo % 16 = lo := by
    omega
  have hr1 : 55296 ≤ hi ∧ hi ≤ 56319 := by constructor <;> omega
  have hr2 : 56320 ≤ lo ∧ lo ≤ 57343 := by constructor <;> omega
  have hrec : 65536 + (hi - 55296) * 1024 + (lo - 56320) = t := by omega
  show parseStrBody ((fuel + 3) + 1) _ = _
  rw [parseStrBody]
  simp only [Char.reduceEq, reduceIte]
  show psbEscape ((fuel + 2) + 1) _ = _
  rw [psbEscape]
  simp only [Char.reduceEq, reduceIte]
  simp only [hex4, List.cons_append, List.nil_append]
  show psbHex ((fuel + 1) + 1) _ = _
  rw [psbHex]
  simp only [e1, e2, e3, e4]
  simp only [hcode]
  rw [if_pos hr1]
  rw [psbPair]
  simp only [f1, f2, f3, f4]
  simp only [hcode2]
  rw [if_pos hr2, hrec]

theorem parseStrBody_escStr : ∀ (cs : Chars) (fuel : Nat) (rest : Chars),
    (escStr cs).length < fuel →
    parseStrBody fuel (escStr cs ++ '"' :: rest) = some (cs, rest) := by
  intro cs
  induction cs with
  | nil =>
    intro fuel rest hlen
    obtain ⟨f, rfl⟩ : ∃ f, fuel = f + 1 := ⟨fuel - 1, by omega⟩
    rw [escStr, List.nil_append, parseStrBody]
    simp
  | cons c cs ih =>
    intro fuel rest hlen
    rw [escStr] at hlen ⊢
    rw [List.append_assoc]
    by_cases h1 : c = '"'
    · subst h1
      have hlen2 : 2 + (escStr cs).length < fuel := by
        rw [List.length_append] at hlen
        simpa [escChar] using hlen
      obtain ⟨f, rfl⟩ : ∃ f, fuel = f + 2 := ⟨fuel - 2, by omega⟩
      rw [escChar]
      simp only [Char.reduceEq, reduceIte, List.cons_append, List.nil_append]
      rw [parseStrBody]
      simp only [Char.reduceEq, reduceIte]
      rw [psbEscape]
      simp only [Char.reduceEq, reduceIte, escDecode]
      rw [ih f _ (by omega)]
      simp
    · by_cases h2 : c = '\\'
      · subst h2
        have hlen2 : 2 + (escStr cs).length < fuel := by
          rw [List.length_append] at hlen
          simpa [escChar] using hlen
        obtain ⟨f, rfl⟩ : ∃ f, fuel = f + 2 := ⟨fuel - 2, by omega⟩
        rw [escChar]
        simp only [Char.reduceEq, reduceIte, List.cons_append, List.nil_append]
        rw [parseStrBody]
        simp only [Char.reduceEq, reduceIte]
        rw [psbEscape]
        simp only [Char.reduceEq, reduceIte, escDecode]
        rw [ih f _ (by omega)]
        simp
      · by_cases h3 : c = '\n'
        · subst h3
          have hlen2 : 2 + (escStr cs).length < fuel := by
            rw [List.length_append] at hlen
            simpa [escChar] using hlen
          obtain ⟨f, rfl⟩ : ∃ f, fuel = f + 2 := ⟨fuel - 2, by omega⟩
          rw [escChar]
          simp only [Char.reduceEq, reduceIte, List.cons_append, List.nil_append]
          rw [parseStrBody]
          simp only [Char.reduceEq, reduceIte]
          rw [psbEscape]
          simp only [Char.reduceEq, reduceIte, escDecode]
          rw [ih f _ (by omega)]
          simp
        · by_cases h4 : c = '\r'
          · subst h4
            have hlen2 : 2 + (escStr cs).length < fuel := by
              rw [List.length_append] at hlen
              simpa [escChar] using hlen
            obtain ⟨f, rfl⟩ : ∃ f, fuel = f + 2 := ⟨fuel - 2, by omega⟩
            rw [escChar]
            simp only [Char.reduceEq, reduceIte, List.cons_append, List.nil_append]
            rw [parseStrBody]
            simp only [Char.reduceEq, reduceIte]
            rw [psbEscape]
            simp only [Char.reduceEq, reduceIte, escDecode]
            rw [ih f _ (by omega)]
            simp
          · by_cases h5 : c = '\t'
            · subst h5
              have hlen2 : 2 + (escStr cs).length < fuel := by
                rw [List.length_append] at hlen
                simpa [escChar] using hlen
              obtain ⟨f, rfl⟩ : ∃ f, fuel = f + 2 := ⟨fuel - 2, by omega⟩
              rw [escChar]
              simp only [Char.reduceEq, reduceIte, List.cons_append, List.nil_append]
              rw [parseStrBody]
              simp only [Char.reduceEq, reduceIte]
              rw [psbEscape]
              simp only [Char.reduceEq, reduceIte, escDecode]
              rw [ih f _ (by omega)]
              simp
            · by_cases h6 : c = Char.ofNat 8
              · subst h6
                have hlen2 : 2 + (escStr cs).length < fuel := by
                  rw [List.length_append] at hlen
                  simpa [escChar] using hlen
                obtain ⟨f, rfl⟩ : ∃ f, fuel = f + 2 := ⟨fuel - 2, by omega⟩
                rw [escChar]
                simp only [Char.reduceEq, reduceIte, List.cons_append, List.nil_append]
                rw [parseStrBody]
                simp only [Char.reduceEq, reduceIte]
                rw [psbEscape]
                simp only [Char.reduceEq, reduceIte, escDecode]
                rw [ih f _ (by omega)]
                simp
              · by_cases h7 : c = Char.ofNat 12
                · subst h7
                  have hlen2 : 2 + (escStr cs).length < fuel := by
                    rw [List.length_append] at hlen
                    simpa [escChar] using hlen
                  obtain ⟨f, rfl⟩ : ∃ f, fuel = f + 2 := ⟨fuel - 2, by omega⟩
                  rw [escChar]
                  simp only [Char.reduceEq, reduceIte, List.cons_append, List.nil_append]
                  rw [parseStrBody]
                  simp only [Char.reduceEq, reduceIte]
                  rw [psbEscape]
                  simp only [Char.reduceEq, reduceIte, escDecode]
                  rw [ih f _ (by omega)]
                  simp
                · by_cases h8 : c.toNat < 0x20
                  · rw [escChar, if_neg h1, if_neg h2, if_neg h3, if_neg h4, if_neg h5,
                      if_neg h6, if_neg h7, if_pos h8] at hlen ⊢
                    have hlen2 : 6 + (escStr cs).length < fuel := by
                      rw [List.length_append] at hlen
                      simpa [hex4] using hlen
                    obtain ⟨f, rfl⟩ : ∃ f, fuel = f + 3 := ⟨fuel - 3, by omega⟩
                    simp only [List.cons_append, List.append_assoc]
                    rw [parseStrBody_u_escape f c.toNat (by omega) (by omega),
                      ih f _ (by omega)]
                    simp
                  · by_cases h9 : c.toNat < 0x7f
                    · rw [escChar, if_neg h1, if_neg h2, if_neg h3, if_neg h4, if_neg h5,
                        if_neg h6, if_neg h7, if_neg h8, if_pos h9] at hlen ⊢
                      have hlen2 : 1 + (escStr cs).length < fuel := by
                        rw [List.length_append] at hlen
                        simpa using hlen
                      obtain ⟨f, rfl⟩ : ∃ f, fuel = f + 1 := ⟨fuel - 1, by omega⟩
                      rw [List.cons_append, List.nil_append, parseStrBody]
                      rw [if_neg h1, if_neg h2, if_neg h8]
                      rw [ih f _ (by omega)]
                      simp
                    · by_cases h10 : c.toNat < 0x10000
                      · have hvr : c.toNat < 0xD800 ∨ 0xDFFF < c.toNat := by
                          rcases char_valid_range c with hv | hv
                          · exact Or.inl hv
                          · exact Or.inr hv.1
                        rw [escChar, if_neg h1, if_neg h2, if_neg h3, if_neg h4, if_neg h5,
                          if_neg h6, if_neg h7, if_neg h8, if_neg h9, if_pos h10] at hlen ⊢
                        have hlen2 : 6 + (escStr cs).length < fuel := by
                          rw [List.length_append] at hlen
                          simpa [hex4] using hlen
                        obtain ⟨f, rfl⟩ : ∃ f, fuel = f + 3 := ⟨fuel - 3, by omega⟩
                        simp only [List.cons_append, List.append_assoc]
                        rw [parseStrBody_u_escape f c.toNat (by omega) hvr,
                          ih f _ (by omega)]
                        simp
                      · have hv : c.toNat < 0x110000 := by
                          rcases char_valid_range c with hv | hv
                          · omega
                          · exact hv.2
                        rw [escChar, if_neg h1, if_neg h2, if_neg h3, if_neg h4, if_neg h5,
                          if_neg h6, if_neg h7, if_neg h8, if_neg h9, if_neg h10] at hlen ⊢
                        have hlen2 : 12 + (escStr cs).length < fuel := by
                          rw [List.length_append] at hlen
                          simpa [hex4] using hlen
                        obtain ⟨f, rfl⟩ : ∃ f, fuel = f + 4 := ⟨fuel - 4, by omega⟩
                        simp only [List.cons_append, List.append_assoc]
                        rw [parseStrBody_pair_escape f c.toNat (by omega) hv,
                          ih f _ (by omega)]
                        simp

/-- Characters that would extend or alter a just-parsed number literal. -/
def numCont (c : Char) : Bool := c.isDigit || c = '.' || c = 'e' || c = 'E'

/-- A tail that cannot extend a preceding number literal (in printed JSON the
character after a value is a comma, a newline, a closing bracket, or the
end of input). -/
def GoodTail (rest : Chars) : Prop := ∀ c, rest.head? = some c → numCont c = false

theorem goodTail_nil : GoodTail [] := by intro c h; cases h

theorem goodTail_cons (c : Char) (t : Chars) (h : numCont c = false) :
    GoodTail (c :: t) := by
  intro c2 h2
  cases h2
  exact h

theorem natToDigits_cons (n : Nat) :
    ∃ d ds, natToDigits n = d :: ds ∧ d.isDigit = true := by
  obtain ⟨d, ds, h⟩ := List.exists_cons_of_ne_nil (natToDigits_ne_nil n)
  exact ⟨d, ds, h, natToDigits_all_digits n d (h ▸ List.mem_cons_self d ds)⟩

theorem isDigit_spec (d : Char) (h : d.isDigit = true) :
    d ≠ '-' ∧ d ≠ '+' ∧ d ≠ '.' ∧ d ≠ 'e' ∧ d ≠ 'E' ∧ numCont d = true := by
  refine ⟨?_, ?_, ?_, ?_, ?_, ?_⟩
  · intro hh; subst hh; exact absurd h (by decide)
  · intro hh; subst hh; exact absurd h (by decide)
  · intro hh; subst hh; exact absurd h (by decide)
  · intro hh; subst hh; exact absurd h (by decide)
  · intro hh; subst hh; exact absurd h (by decide)
  · simp [numCont, h]

theorem goodTail_head_not_digit (rest : Chars) (h : GoodTail rest) :
    ∀ c, rest.head? = some c → c.isDigit = false := by
  intro c hc
  have := h c hc
  simp only [numCont, Bool.or_eq_false_iff, decide_eq_false_iff_not] at this
  exact this.1.1.1

theorem span_digits_prefix (n : Nat) (X : Chars)
    (hX : ∀ c, X.head? = some c → c.isDigit = false) :
    (natToDigits n ++ X).takeWhile Char.isDigit = natToDigits n ∧
      (natToDigits n ++ X).dropWhile Char.isDigit = X :=
  takeWhile_digits_of_append (natToDigits n) X (natToDigits_all_digits n) hX

theorem natToDigits_no_leading_zero (n : Nat) :
    ¬ (1 < (natToDigits n).length ∧ (natToDigits n).head? = some '0') := by
  rintro ⟨hlen, hhead⟩
  by_cases h : n < 10
  · rw [natToDigits_lt n h] at hlen
    simp at hlen
  · exact natToDigits_head_ne_zero n (by omega) '0' hhead rfl

theorem parseExpPart_no_exp (m e0 : Int) (rest : Chars) (hrest : GoodTail rest) :
    parseExpPart m e0 rest = some (.num m e0, rest) := by
  match rest with
  | [] => simp [parseExpPart]
  | c :: t =>
    have hc := hrest c rfl
    simp only [numCont, Bool.or_eq_false_iff, decide_eq_false_iff_not] at hc
    obtain ⟨⟨⟨hdig, hdot⟩, he2⟩, hE⟩ := hc
    simp [parseExpPart, he2, hE]

theorem parseExpPart_exp (m e0 : Int) (e : Int) (rest : Chars) (hrest : GoodTail rest) :
    parseExpPart m e0 ('e' :: (intRepr e ++ rest)) = some (.num m (e0 + e), rest) := by
  have hspan := span_digits_prefix e.natAbs rest (goodTail_head_not_digit rest hrest)
  by_cases he : e < 0
  · rw [intRepr, if_pos he]
    simp only [List.cons_append]
    simp [parseExpPart, hspan.1, hspan.2, digitsToNat_natToDigits, natToDigits_ne_nil]
    rw [abs_of_neg he]
    ring
  · rw [intRepr, if_neg he]
    obtain ⟨d, ds, hds, hd⟩ := natToDigits_cons e.natAbs
    obtain ⟨hm1, hp1, _, _, _, _⟩ := isDigit_spec d hd
    have hh1 : (natToDigits e.natAbs ++ rest).head? = some d := by
      rw [hds]; simp
    simp [parseExpPart, hh1, hm1, hp1, hspan.1, hspan.2, digitsToNat_natToDigits,
      natToDigits_ne_nil]
    omega

theorem parseNumber_ppNum (m e : Int) (rest : Chars) (hrest : GoodTail rest) :
    parseNumber (ppNum m e ++ rest) = some (.num m e, rest) := by
  have hdot : rest.head? ≠ some '.' := by
    intro hh
    have := hrest '.' hh
    simp [numCont] at this
  by_cases he0 : e = 0
  · subst he0
    rw [ppNum, if_pos rfl]
    have hspan := span_digits_prefix m.natAbs rest (goodTail_head_not_digit rest hrest)
    by_cases hm : m < 0
    · rw [intRepr, if_pos hm]
      simp only [List.cons_append]
      simp [parseNumber, hspan.1, hspan.2, natToDigits_ne_nil, natToDigits_no_leading_zero,
        digitsToNat_natToDigits, hdot, parseExpPart_no_exp _ _ rest hrest]
      rw [abs_of_neg hm]
      ring
    · rw [intRepr, if_neg hm]
      obtain ⟨d, ds, hds, hd⟩ := natToDigits_cons m.natAbs
      obtain ⟨hm1, hp1, _, _, _, _⟩ := isDigit_spec d hd
      have hh1 : (natToDigits m.natAbs ++ rest).head? = some d := by rw [hds]; simp
      simp [parseNumber, hh1, hm1, hspan.1, hspan.2, natToDigits_ne_nil,
        natToDigits_no_leading_zero, digitsToNat_natToDigits, hdot,
        parseExpPart_no_exp _ _ rest hrest]
      omega
  · rw [ppNum, if_neg he0]
    have hbound : ∀ c, (('e' :: (intRepr e ++ rest)) : Chars).head? = some c →
        c.isDigit = false := by
      intro c hc
      cases hc
      decide
    have hspan := span_digits_prefix m.natAbs ('e' :: (intRepr e ++ rest)) hbound
    by_cases hm : m < 0
    · rw [intRepr, if_pos hm]
      simp only [List.cons_append, List.append_assoc]
      simp [parseNumber, hspan.1, hspan.2, natToDigits_ne_nil, natToDigits_no_leading_zero,
        digitsToNat_natToDigits, parseExpPart_exp _ _ e rest hrest]
      rw [abs_of_neg hm]
      ring
    · rw [intRepr, if_neg hm]
      obtain ⟨d, ds, hds, hd⟩ := natToDigits_cons m.natAbs
      obtain ⟨hm1, hp1, _, _, _, _⟩ := isDigit_spec d hd
      have hh1 : (natToDigits m.natAbs ++ ('e' :: (intRepr e ++ rest))).head? = some d := by
        rw [hds]; simp
      simp only [List.cons_append, List.append_assoc]
      simp [parseNumber, hh1, hm1, hspan.1, hspan.2, natToDigits_ne_nil,
        natToDigits_no_leading_zero, digitsToNat_natToDigits,
        parseExpPart_exp _ _ e rest hrest]
      omega

theorem skipWs_append_ws (w s : Chars) (h : ∀ c ∈ w, jWs c = true) :
    skipWs (w ++ s) = skipWs s := by
  induction w with
  | nil => simp
  | cons c t ih =>
    have hc := h c (by simp)
    simp only [List.cons_append, skipWs, List.dropWhile_cons, hc, if_true]
    exact ih (fun c2 hc2 => h c2 (by simp [hc2]))

theorem skipWs_not_ws (c : Char) (t : Chars) (h : jWs c = false) :
    skipWs (c :: t) = c :: t := by
  simp [skipWs, List.dropWhile_cons, h]

theorem indentSp_ws (lvl : Nat) : ∀ c ∈ indentSp lvl, jWs c = true := by
  intro c hc
  rw [indentSp] at hc
  have := List.eq_of_mem_replicate hc
  subst this
  decide

theorem digit_head_facts (d : Char) (h : d.isDigit = true) :
    jWs d = false ∧ d ≠ ']' ∧ d ≠ rbrace ∧ d ≠ '"' ∧ d ≠ '[' ∧ d ≠ 'n' ∧ d ≠ 't' ∧
      d ≠ 'f' ∧ d ≠ lbrace := by
  refine ⟨?_, ?_, ?_, ?_, ?_, ?_, ?_, ?_, ?_⟩
  · by_contra hb
    rw [Bool.not_eq_false] at hb
    simp only [jWs, Bool.or_eq_true, decide_eq_true_eq] at hb
    rcases hb with ((hb | hb) | hb) | hb <;> subst hb <;> exact absurd h (by decide)
  all_goals intro hb
  all_goals subst hb
  all_goals exact absurd h (by decide)

/-- Head character of the serialization of a value: it is never whitespace,
never a closing bracket and never a closing brace. -/
theorem ppHead (v : Json) (lvl : Nat) :
    ∃ c t, ppJson v lvl = c :: t ∧ jWs c = false ∧ c ≠ ']' ∧ c ≠ rbrace := by
  match v with
  | .null => exact ⟨'n', _, rfl, by decide, by decide, by decide⟩
  | .bool true => exact ⟨'t', _, rfl, by decide, by decide, by decide⟩
  | .bool false => exact ⟨'f', _, rfl, by decide, by decide, by decide⟩
  | .num m e =>
    by_cases hm : m < 0
    · have ht : ppJson (.num m e) lvl =
          '-' :: (natToDigits m.natAbs ++ (if e = 0 then ([] : Chars) else 'e' :: intRepr e)) := by
        rw [ppJson, ppNum]
        by_cases he : e = 0 <;> simp [he, intRepr, hm]
      exact ⟨_, _, ht, by decide, by decide, by decide⟩
    · obtain ⟨d, ds, hds, hd⟩ := natToDigits_cons m.natAbs
      obtain ⟨hws, hrb, hrb2, _, _, _, _, _, _⟩ := digit_head_facts d hd
      have ht : ppJson (.num m e) lvl =
          d :: (ds ++ (if e = 0 then ([] : Chars) else 'e' :: intRepr e)) := by
        rw [ppJson, ppNum]
        by_cases he : e = 0 <;> simp [he, intRepr, hm, hds]
      exact ⟨_, _, ht, hws, hrb, hrb2⟩
  | .str s => exact ⟨'"', _, rfl, by decide, by decide, by decide⟩
  | .arr [] => exact ⟨'[', _, rfl, by decide, by decide, by decide⟩
  | .arr (x :: xs) => exact ⟨'[', _, rfl, by decide, by decide, by decide⟩
  | .obj [] => exact ⟨lbrace, _, rfl, by decide, by decide, by decide⟩
  | .obj ((k, v2) :: ms) => exact ⟨lbrace, _, rfl, by decide, by decide, by decide⟩

theorem ppJson_length_pos (v : Json) (lvl : Nat) : 1 ≤ (ppJson v lvl).length := by
  obtain ⟨c, t, h, _⟩ := ppHead v lvl
  rw [h]
  simp

/-- Skipping whitespace over a whitespace run followed by a serialized
value. -/
theorem skipWs_ws_pp (w : Chars) (hw : ∀ c ∈ w, jWs c = true) (v : Json) (lvl : Nat)
    (rest : Chars) :
    skipWs (w ++ (ppJson v lvl ++ rest)) = ppJson v lvl ++ rest := by
  obtain ⟨c, t, h, hws, _⟩ := ppHead v lvl
  rw [skipWs_append_ws w _ hw, h, List.cons_append, skipWs_not_ws _ _ hws]

theorem parseStr_escStr (cs rest : Chars) :
    parseStr (escStr cs ++ '"' :: rest) = some (cs, rest) := by
  apply parseStrBody_escStr
  simp only [List.length_append, List.length_cons]
  omega

theorem goodTail_aTail (xs : List Json) (lvl : Nat) (X : Chars) :
    GoodTail (ppATail xs lvl ++ '\n' :: X) := by
  cases xs with
  | nil => exact goodTail_cons _ _ (by decide)
  | cons y ys => exact goodTail_cons _ _ (by decide)

theorem goodTail_oTail (ms : List (Chars × Json)) (lvl : Nat) (X : Chars) :
    GoodTail (ppOTail ms lvl ++ '\n' :: X) := by
  cases ms with
  | nil => exact goodTail_cons _ _ (by decide)
  | cons m ms2 =>
    obtain ⟨k, v⟩ := m
    exact goodTail_cons _ _ (by decide)

theorem parseJ_val_default (fuel : Nat) (s : Chars) (c : Char) (r : Chars)
    (hs : skipWs s = c :: r) (h1 : c ≠ '"') (h2 : c ≠ '[') (h3 : c ≠ 'n') (h4 : c ≠ 't')
    (h5 : c ≠ 'f') :
    parseJ (fuel + 1) .val s =
      if c = lbrace then
        if (skipWs r).head? = some rbrace then some (.obj [], (skipWs r).tail)
        else parseJ fuel (.objTail []) r
      else parseNumber (c :: r) := by
  rw [parseJ, hs]
  split <;> simp_all

theorem jWs_cons_nl (pad : Chars) (hp : ∀ c ∈ pad, jWs c = true) :
    ∀ c ∈ ('\n' :: pad), jWs c = true := by
  intro c hc
  rcases List.mem_cons.mp hc with rfl | h
  · decide
  · exact hp c h

theorem ppNum_head (m e : Int) :
    ∃ c t, ppNum m e = c :: t ∧ (c = '-' ∨ c.isDigit = true) := by
  by_cases hm : m < 0
  · refine ⟨'-', natToDigits m.natAbs ++ (if e = 0 then ([] : Chars) else 'e' :: intRepr e),
      ?_, Or.inl rfl⟩
    rw [ppNum]
    by_cases he : e = 0 <;> simp [he, intRepr, hm]
  · obtain ⟨d, ds, hds, hd⟩ := natToDigits_cons m.natAbs
    refine ⟨d, ds ++ (if e = 0 then ([] : Chars) else 'e' :: intRepr e), ?_, Or.inr hd⟩
    rw [ppNum]
    by_cases he : e = 0 <;> simp [he, intRepr, hm, hds]

theorem parseJ_val_quote (fuel : Nat) (s T : Chars) (hs : skipWs s = '"' :: T) :
    parseJ (fuel + 1) .val s = (parseStr T).map (fun p => (.str p.1, p.2)) := by
  rw [parseJ, hs]
  rfl

theorem parseJ_val_lbrack (fuel : Nat) (s T : Chars) (hs : skipWs s = '[' :: T) :
    parseJ (fuel + 1) .val s =
      if (skipWs T).head? = some ']' then some (.arr [], (skipWs T).tail)
      else parseJ fuel (.arrTail []) T := by
  rw [parseJ, hs]
  rfl

theorem parseJ_val_null (fuel : Nat) (s T : Chars)
    (hs : skipWs s = 'n' :: 'u' :: 'l' :: 'l' :: T) :
    parseJ (fuel + 1) .val s = some (.null, T) := by
  rw [parseJ, hs]
  rfl

theorem parseJ_val_true (fuel : Nat) (s T : Chars)
    (hs : skipWs s = 't' :: 'r' :: 'u' :: 'e' :: T) :
    parseJ (fuel + 1) .val s = some (.bool true, T) := by
  rw [parseJ, hs]
  rfl

theorem parseJ_val_false (fuel : Nat) (s T : Chars)
    (hs : skipWs s = 'f' :: 'a' :: 'l' :: 's' :: 'e' :: T) :
    parseJ (fuel + 1) .val s = some (.bool false, T) := by
  rw [parseJ, hs]
  rfl

set_option maxHeartbeats 1000000 in
theorem parseJ_pp_sound : ∀ f : Nat,
    (∀ (v : Json) (lvl : Nat) (w rest : Chars),
      (∀ c ∈ w, jWs c = true) → GoodTail rest → (ppJson v lvl).length < f →
      parseJ f .val (w ++ (ppJson v lvl ++ rest)) = some (v, rest)) ∧
    (∀ (x : Json) (xs : List Json) (acc : List Json) (lvl : Nat) (pad rest : Chars),
      (∀ c ∈ pad, jWs c = true) →
      (ppJson x lvl).length + (ppATail xs lvl).length + 1 < f →
      parseJ f (.arrTail acc)
          (('\n' :: indentSp lvl) ++
            (ppJson x lvl ++ (ppATail xs lvl ++ '\n' :: (pad ++ ']' :: rest)))) =
        some (.arr (acc.reverse ++ x :: xs), rest)) ∧
    (∀ (k : Chars) (v2 : Json) (ms : List (Chars × Json)) (acc : List (Chars × Json))
        (lvl : Nat) (pad rest : Chars),
      (∀ c ∈ pad, jWs c = true) →
      (ppString k).length + (ppJson v2 lvl).length + (ppOTail ms lvl).length + 1 < f →
      parseJ f (.objTail acc)
          (('\n' :: indentSp lvl) ++
            (ppString k ++ ':' :: ' ' ::
              (ppJson v2 lvl ++ (ppOTail ms lvl ++ '\n' :: (pad ++ rbrace :: rest))))) =
        some (.obj (acc.reverse ++ (k, v2) :: ms), rest)) := by
  intro f
  induction f with
  | zero =>
    refine ⟨?_, ?_, ?_⟩
    · intro v lvl w rest _ _ hlen
      exact absurd hlen (Nat.not_lt_zero _)
    · intro x xs acc lvl pad rest _ hlen
      exact absurd hlen (Nat.not_lt_zero _)
    · intro k v2 ms acc lvl pad rest _ hlen
      exact absurd hlen (Nat.not_lt_zero _)
  | succ f ih =>
    obtain ⟨ihV, ihA, ihO⟩ := ih
    refine ⟨?_, ?_, ?_⟩
    · intro v lvl w rest hw hrest hlen
      match v with
      | .null =>
        exact parseJ_val_null f _ rest (by rw [skipWs_ws_pp w hw]; rfl)
      | .bool true =>
        exact parseJ_val_true f _ rest (by rw [skipWs_ws_pp w hw]; rfl)
      | .bool false =>
        exact parseJ_val_false f _ rest (by rw [skipWs_ws_pp w hw]; rfl)
      | .str s0 =>
        rw [parseJ_val_quote f _ (escStr s0 ++ '"' :: rest)
          (by rw [skipWs_ws_pp w hw]
              show ppString s0 ++ rest = _
              rw [ppString]
              simp only [List.cons_append, List.append_assoc, List.singleton_append,
                List.nil_append])]
        rw [parseStr_escStr]
        rfl
      | .num m e =>
        obtain ⟨c, t, hct, hc⟩ := ppNum_head m e
        have hf : c ≠ '"' ∧ c ≠ '[' ∧ c ≠ 'n' ∧ c ≠ 't' ∧ c ≠ 'f' ∧ c ≠ lbrace := by
          rcases hc with rfl | hd
          · exact ⟨by decide, by decide, by decide, by decide, by decide, by decide⟩
          · obtain ⟨_, _, _, h4, h5, h6, h7, h8, h9⟩ := digit_head_facts c hd
            exact ⟨h4, h5, h6, h7, h8, h9⟩
        have hs : skipWs (w ++ (ppJson (.num m e) lvl ++ rest)) = c :: (t ++ rest) := by
          rw [skipWs_ws_pp w hw]
          show ppNum m e ++ rest = _
          rw [hct]
          simp
        rw [parseJ_val_default f _ c (t ++ rest) hs hf.1 hf.2.1 hf.2.2.1 hf.2.2.2.1
          hf.2.2.2.2.1, if_neg hf.2.2.2.2.2]
        have hback : c :: (t ++ rest) = ppNum m e ++ rest := by rw [hct]; simp
        rw [hback]
        exact parseNumber_ppNum m e rest hrest
      | .arr [] =>
        rw [parseJ_val_lbrack f _ (']' :: rest) (by rw [skipWs_ws_pp w hw]; rfl)]
        rw [skipWs_not_ws _ _ (by decide)]
        simp
      | .arr (x :: xs) =>
        have hs : skipWs (w ++ (ppJson (.arr (x :: xs)) lvl ++ rest)) =
            '[' :: ('\n' :: (indentSp (lvl + 1) ++ (ppJson x (lvl + 1) ++
              (ppATail xs (lvl + 1) ++ '\n' :: (indentSp lvl ++ ']' :: rest))))) := by
          rw [skipWs_ws_pp w hw, ppJson]
          simp only [List.cons_append, List.append_assoc, List.singleton_append,
            List.nil_append]
        rw [parseJ_val_lbrack f _ _ hs]
        obtain ⟨c, t, hct, hcws, hcbr, _⟩ := ppHead x (lvl + 1)
        have hT2 : skipWs ('\n' :: (indentSp (lvl + 1) ++ (ppJson x (lvl + 1) ++
            (ppATail xs (lvl + 1) ++ '\n' :: (indentSp lvl ++ ']' :: rest))))) =
            ppJson x (lvl + 1) ++ (ppATail xs (lvl + 1) ++
              '\n' :: (indentSp lvl ++ ']' :: rest)) :=
          skipWs_ws_pp ('\n' :: indentSp (lvl + 1))
            (jWs_cons_nl _ (indentSp_ws (lvl + 1))) x (lvl + 1) _
        rw [if_neg (by rw [hT2, hct]; simp [hcbr])]
        rw [ppJson] at hlen
        simp only [List.length_append, List.length_cons, indentSp,
          List.length_replicate] at hlen
        have hA := ihA x xs [] (lvl + 1) (indentSp lvl) rest (indentSp_ws lvl) (by omega)
        simp only [List.cons_append, List.reverse_nil, List.nil_append] at hA
        exact hA
      | .obj [] =>
        have hs : skipWs (w ++ (ppJson (.obj []) lvl ++ rest)) =
            lbrace :: (rbrace :: rest) := by rw [skipWs_ws_pp w hw]; rfl
        rw [parseJ_val_default f _ lbrace (rbrace :: rest) hs (by decide) (by decide)
          (by decide) (by decide) (by decide), if_pos rfl]
        rw [skipWs_not_ws _ _ (by decide)]
        simp
      | .obj ((k, v2) :: ms) =>
        have hs : skipWs (w ++ (ppJson (.obj ((k, v2) :: ms)) lvl ++ rest)) =
            lbrace :: ('\n' :: (indentSp (lvl + 1) ++ (ppString k ++ ':' :: ' ' ::
              (ppJson v2 (lvl + 1) ++ (ppOTail ms (lvl + 1) ++
                '\n' :: (indentSp lvl ++ rbrace :: rest)))))) := by
          rw [skipWs_ws_pp w hw, ppJson]
          simp only [List.cons_append, List.append_assoc, List.singleton_append,
            List.nil_append]
        rw [parseJ_val_default f _ lbrace _ hs (by decide) (by decide) (by decide)
          (by decide) (by decide), if_pos rfl]
        have hT2 : skipWs ('\n' :: (indentSp (lvl + 1) ++ (ppString k ++ ':' :: ' ' ::
            (ppJson v2 (lvl + 1) ++ (ppOTail ms (lvl + 1) ++
              '\n' :: (indentSp lvl ++ rbrace :: rest)))))) =
            ppString k ++ ':' :: ' ' :: (ppJson v2 (lvl + 1) ++ (ppOTail ms (lvl + 1) ++
              '\n' :: (indentSp lvl ++ rbrace :: rest))) := by
          have h1 : ('\n' :: (indentSp (lvl + 1) ++ (ppString k ++ ':' :: ' ' ::
              (ppJson v2 (lvl + 1) ++ (ppOTail ms (lvl + 1) ++
                '\n' :: (indentSp lvl ++ rbrace :: rest)))))) =
              ('\n' :: indentSp (lvl + 1)) ++ (ppString k ++ ':' :: ' ' ::
                (ppJson v2 (lvl + 1) ++ (ppOTail ms (lvl + 1) ++
                  '\n' :: (indentSp lvl ++ rbrace :: rest)))) := by simp
          rw [h1, skipWs_append_ws _ _ (jWs_cons_nl _ (indentSp_ws (lvl + 1))), ppString]
          simp only [List.cons_append]
          rw [skipWs_not_ws _ _ (by decide)]
        rw [if_neg (by rw [hT2, ppString]; simp only [List.cons_append]; simp; decide)]
        rw [ppJson] at hlen
        simp only [List.length_append, List.length_cons, indentSp, List.length_replicate,
          ppString] at hlen
        have hO := ihO k v2 ms [] (lvl + 1) (indentSp lvl) rest (indentSp_ws lvl)
          (by simp only [ppString, List.length_cons, List.length_append]; omega)
        simp only [List.cons_append, List.reverse_nil, List.nil_append] at hO
        exact hO
    · intro x xs acc lvl pad rest hpad hlen
      have hx1 : 1 ≤ (ppJson x lvl).length := ppJson_length_pos x lvl
      have hV := ihV x lvl ('\n' :: indentSp lvl)
        (ppATail xs lvl ++ '\n' :: (pad ++ ']' :: rest))
        (jWs_cons_nl _ (indentSp_ws lvl)) (goodTail_aTail xs lvl _) (by omega)
      rw [parseJ]
      simp only [hV]
      match xs with
      | [] =>
        have hs1 : skipWs (ppATail ([] : List Json) lvl ++ '\n' :: (pad ++ ']' :: rest)) =
            ']' :: rest := by
          rw [ppATail]
          simp only [List.nil_append]
          have h1 : ('\n' :: (pad ++ ']' :: rest)) = ('\n' :: pad) ++ ']' :: rest := by simp
          rw [h1, skipWs_append_ws _ _ (jWs_cons_nl _ hpad), skipWs_not_ws _ _ (by decide)]
        rw [hs1]
        simp
      | y :: ys =>
        have hs1 : skipWs (ppATail (y :: ys) lvl ++ '\n' :: (pad ++ ']' :: rest)) =
            ',' :: ('\n' :: indentSp lvl ++
              (ppJson y lvl ++ (ppATail ys lvl ++ '\n' :: (pad ++ ']' :: rest)))) := by
          rw [ppATail]
          simp only [List.cons_append, List.append_assoc]
          rw [skipWs_not_ws _ _ (by decide)]
        rw [hs1]
        rw [ppATail] at hlen
        simp only [List.length_cons, List.length_append, indentSp,
          List.length_replicate] at hlen
        have hA := ihA y ys (x :: acc) lvl pad rest hpad (by omega)
        simp only [List.cons_append] at hA ⊢
        rw [hA]
        simp
    · intro k v2 ms acc lvl pad rest hpad hlen
      rw [parseJ]
      have hs : skipWs (('\n' :: indentSp lvl) ++ (ppString k ++ ':' :: ' ' ::
          (ppJson v2 lvl ++ (ppOTail ms lvl ++ '\n' :: (pad ++ rbrace :: rest))))) =
          '"' :: (escStr k ++ '"' :: (':' :: ' ' ::
            (ppJson v2 lvl ++ (ppOTail ms lvl ++ '\n' :: (pad ++ rbrace :: rest))))) := by
        rw [skipWs_append_ws _ _ (jWs_cons_nl _ (indentSp_ws lvl)), ppString]
        simp only [List.cons_append, List.append_assoc, List.singleton_append,
          List.nil_append]
        rw [skipWs_not_ws _ _ (by decide)]
      simp only [hs]
      rw [if_pos trivial, parseStr_escStr]
      have hs2 : skipWs (':' :: ' ' ::
          (ppJson v2 lvl ++ (ppOTail ms lvl ++ '\n' :: (pad ++ rbrace :: rest)))) =
          ':' :: (' ' ::
            (ppJson v2 lvl ++ (ppOTail ms lvl ++ '\n' :: (pad ++ rbrace :: rest)))) :=
        skipWs_not_ws _ _ (by decide)
      simp only [hs2]
      have hv1 : 1 ≤ (ppJson v2 lvl).length := ppJson_length_pos v2 lvl
      have hk2 : (ppString k).length = (escStr k).length + 2 := by
        rw [ppString]
        simp
      have hV := ihV v2 lvl [' ']
        (ppOTail ms lvl ++ '\n' :: (pad ++ rbrace :: rest))
        (by intro c hc; simp at hc; subst hc; decide) (goodTail_oTail ms lvl _)
        (by omega)
      simp only [List.cons_append, List.nil_append] at hV
      simp only [hV]
      rcases ms with _ | ⟨⟨k2, w2⟩, ms2⟩
      · have hs3 : skipWs (ppOTail ([] : List (Chars × Json)) lvl ++
            '\n' :: (pad ++ rbrace :: rest)) = rbrace :: rest := by
          rw [ppOTail]
          simp only [List.nil_append]
          have h1 : ('\n' :: (pad ++ rbrace :: rest)) = ('\n' :: pad) ++ rbrace :: rest := by
            simp
          rw [h1, skipWs_append_ws _ _ (jWs_cons_nl _ hpad), skipWs_not_ws _ _ (by decide)]
        simp only [hs3]
        show (if rbrace = rbrace then
            some (Json.obj ((k, v2) :: acc).reverse, rest) else none) =
          some (Json.obj (acc.reverse ++ [(k, v2)]), rest)
        rw [if_pos rfl]
        simp
      · have hs3 : skipWs (ppOTail ((k2, w2) :: ms2) lvl ++
            '\n' :: (pad ++ rbrace :: rest)) =
            ',' :: ('\n' :: indentSp lvl ++ (ppString k2 ++ ':' :: ' ' ::
              (ppJson w2 lvl ++ (ppOTail ms2 lvl ++ '\n' :: (pad ++ rbrace :: rest))))) := by
          rw [ppOTail]
          simp only [List.cons_append, List.append_assoc]
          rw [skipWs_not_ws _ _ (by decide)]
        simp only [hs3]
        show parseJ f (JMode.objTail ((k, v2) :: acc))
            ('\n' :: indentSp lvl ++ (ppString k2 ++ ':' :: ' ' ::
              (ppJson w2 lvl ++ (ppOTail ms2 lvl ++ '\n' :: (pad ++ rbrace :: rest))))) =
          some (Json.obj (acc.reverse ++ (k, v2) :: (k2, w2) :: ms2), rest)
        rw [ppOTail] at hlen
        simp only [List.length_cons, List.length_append] at hlen
        have hO := ihO k2 w2 ms2 ((k, v2) :: acc) lvl pad rest hpad (by omega)
        rw [hO]
        simp

/-- Serializing any value and parsing it back yields the same value: the
fuel `s.length + 1` used by `jsonLoads` is enough because the parser
consumes at least nothing but the bound of `parseJ_pp_sound` is in terms of
the printed length. -/
theorem jsonLoads_jsonDumps (v : Json) : jsonLoads (jsonDumps v) = some v := by
  have hV := (parseJ_pp_sound ((ppJson v 0).length + 1)).1 v 0 [] []
    (by intro c hc; cases hc) goodTail_nil (by omega)
  simp only [List.nil_append, List.append_nil] at hV
  rw [jsonDumps, jsonLoads]
  simp only [hV]
  rfl

/-- Equality of JSON values is decided by comparing their serializations,
which is sound by the round-trip theorem. -/
instance : DecidableEq Json := fun a b =>
  decidable_of_iff (jsonDumps a = jsonDumps b)
    ⟨fun h => Option.some.inj
      (by rw [← jsonLoads_jsonDumps a, ← jsonLoads_jsonDumps b, h]),
     fun h => by rw [h]⟩

/-- Reloading the dump of a list value yields the original list. -/
theorem jsonLoadsList_dumps (l : List Json) :
    jsonLoadsList (jsonDumps (.arr l)) = l := by
  rw [jsonLoadsList, jsonLoads_jsonDumps]

theorem dumps_arr_nil : jsonDumps (.arr []) = "[]".toList := rfl

/-- The dump of a non-empty list is neither empty nor the two-character
text `[]`: its second character is a newline. -/
theorem dumps_arr_cons_ne (x : Json) (xs : List Json) :
    jsonDumps (.arr (x :: xs)) ≠ [] ∧ jsonDumps (.arr (x :: xs)) ≠ "[]".toList := by
  rw [jsonDumps, ppJson]
  constructor
  · simp
  · intro h
    rw [show "[]".toList = ['[', ']'] from rfl] at h
    simp at h

/-- The Pass-1 loop calls the Gateway once per chunk, in order, always with
the extraction prompt. -/
theorem extractRawLoop_log (gw : Chars → Chars → Chars) (cs : List Chars) :
    (extractRawLoop gw cs).2 = cs.map (fun c => (c, getExtractionPrompt)) := by
  induction cs with
  | nil => rfl
  | cons c t ih => simp [extractRawLoop, ih]

/-- `str.strip()` of an all-whitespace string is empty. -/
theorem pyStrip_eq_nil (s : Chars) (h : ∀ c ∈ s, pyIsSpace c = true) :
    pyStrip s = [] := by
  have h1 : s.dropWhile pyIsSpace = [] := List.dropWhile_eq_nil_iff.mpr h
  simp [pyStrip, h1]

/-- A Gateway response of exactly the text `[]` parses to the empty list. -/
theorem parseLLMOutput_empty_list : parseLLMOutput "[]".toList = [] := by decide

/-- If every Pass-1 response parses to the empty list, the loop accumulates
nothing. -/
theorem extractRawLoop_all_empty (gw : Chars → Chars → Chars) (cs : List Chars)
    (h : ∀ c ∈ cs, parseLLMOutput (gw c getExtractionPrompt) = []) :
    (extractRawLoop gw cs).1 = [] := by
  induction cs with
  | nil => rfl
  | cons c t ih =>
    have hc := h c (by simp)
    simp only [extractRawLoop, hc]
    simp [ih (fun c2 hc2 => h c2 (by simp [hc2]))]

/-- C4: whenever the serialized Pass-1 raw list exceeds the token budget,
`extract` returns exactly the concatenated raw record list, unmodified, and
the call log holds only the Pass-1 extraction calls: the Pass-2 Gateway
call with the synthesis prompt is never made. -/
theorem c4_oversize_returns_raw_list (tok : Chars → Nat) (gw : Chars → Chars → Chars)
    (maxInputTokens : Nat) (text : Chars)
    (hne : pyStrip text ≠ [])
    (hov : tok (extractRawModulesFromChunks tok gw maxInputTokens text).1 > maxInputTokens) :
    extract tok gw maxInputTokens text =
      ((extractRawLoop gw (chunkTextByTokens tok text maxInputTokens)).1,
       (chunkTextByTokens tok text maxInputTokens).map (fun c => (c, getExtractionPrompt))) := by
  rw [extract, if_neg hne]
  cases hr : (extractRawLoop gw (chunkTextByTokens tok text maxInputTokens)).1 with
  | nil =>
    simp [extractRawModulesFromChunks, hr, dumps_arr_nil, extractRawLoop_log]
  | cons x xs =>
    have hne2 := dumps_arr_cons_ne x xs
    rw [extractRawModulesFromChunks] at hov ⊢
    simp only [hr] at hov ⊢
    rw [if_neg (by rintro (h | h) <;> simp_all)]
    rw [synthesizeAndCleanModules, if_pos hov]
    rw [jsonLoadsList_dumps]
    simp [extractRawLoop_log, hr]

/-- C5: if the Gateway answers `[]` for every Pass-1 chunk of a non-empty
input, `extract` returns the empty list and the call log holds only the
Pass-1 extraction calls: Pass 2 is never invoked. -/
theorem c5_all_empty_responses (tok : Chars → Nat) (gw : Chars → Chars → Chars)
    (maxInputTokens : Nat) (text : Chars)
    (hne : pyStrip text ≠ [])
    (hgw : ∀ c ∈ chunkTextByTokens tok text maxInputTokens,
      gw c getExtractionPrompt = "[]".toList) :
    extract tok gw maxInputTokens text =
      ([], (chunkTextByTokens tok text maxInputTokens).map
        (fun c => (c, getExtractionPrompt))) := by
  have hraw : (extractRawLoop gw (chunkTextByTokens tok text maxInputTokens)).1 = [] :=
    extractRawLoop_all_empty _ _
      (fun c hc => by rw [hgw c hc]; exact parseLLMOutput_empty_list)
  rw [extract, if_neg hne]
  simp [extractRawModulesFromChunks, hraw, dumps_arr_nil, extractRawLoop_log]

/-- C7: the response parser totalizes: the empty response yields the empty
list, and any non-empty response that fails to decode as JSON yields the
empty list. -/
theorem c7_parser_never_raises (s : Chars) :
    parseLLMOutput [] = [] ∧ (s ≠ [] → jsonLoads s = none → parseLLMOutput s = []) := by
  constructor
  · rfl
  · intro h1 h2
    rw [parseLLMOutput, if_neg h1, h2]

/-- C7 (witness): the parser at the undecodable response `not json`. -/
theorem c7_parser_never_raises_witness :
    ("not json".toList ≠ [] ∧ jsonLoads "not json".toList = none) ∧
      parseLLMOutput "not json".toList = [] :=
  ⟨⟨by decide, by decide⟩,
   (c7_parser_never_raises "not json".toList).2 (by decide) (by decide)⟩

/-- C8: on an input of only whitespace (and so also on the empty input)
`extract` returns the empty list at once and makes no Gateway call. -/
theorem c8_blank_input_no_calls (tok : Chars → Nat) (gw : Chars → Chars → Chars)
    (maxInputTokens : Nat) (text : Chars)
    (h : ∀ c ∈ text, pyIsSpace c = true) :
    extract tok gw maxInputTokens text = ([], []) := by
  rw [extract, if_pos (pyStrip_eq_nil text h)]

/-- C8 (witness): the blank-input theorem at a concrete whitespace string. -/
theorem c8_blank_input_no_calls_witness :
    (∀ c ∈ (" \t\n".toList), pyIsSpace c = true) ∧
      extract (fun s => s.length) (fun _ _ => []) 5 (" \t\n".toList) = ([], []) :=
  ⟨by decide, c8_blank_input_no_calls _ _ _ _ (by decide)⟩

/-- C10: when Pass 2 is attempted (the serialized raw list fits the budget
and is non-trivial) but the synthesis response parses to nothing (as it
does when the Gateway fails and `_call_llm` returns the empty string),
`extract` returns the empty list: every Pass-1 raw record is discarded, and
the log shows the synthesis call was made. -/
theorem c10_pass2_failure_discards_raw (tok : Chars → Nat) (gw : Chars → Chars → Chars)
    (maxInputTokens : Nat) (text : Chars)
    (hne : pyStrip text ≠ [])
    (hfit : ¬ tok (extractRawModulesFromChunks tok gw maxInputTokens text).1 > maxInputTokens)
    (hP1 : (extractRawModulesFromChunks tok gw maxInputTokens text).1 ≠ [])
    (hP2 : (extractRawModulesFromChunks tok gw maxInputTokens text).1 ≠ "[]".toList)
    (hparse : parseLLMOutput
      (gw (extractRawModulesFromChunks tok gw maxInputTokens text).1 getSynthesisPrompt) = []) :
    extract tok gw maxInputTokens text =
      ([], (extractRawModulesFromChunks tok gw maxInputTokens text).2 ++
        [((extractRawModulesFromChunks tok gw maxInputTokens text).1, getSynthesisPrompt)]) := by
  rw [extract, if_neg hne]
  rw [if_neg (fun h => h.elim hP1 hP2)]
  rw [synthesizeAndCleanModules, if_neg hfit]
  simp only [hparse]

/-- C6 (counterexample): on the JSON object with a lowercase `description`
key the parser does NOT wrap the object: `_parse_llm_output` checks for the
capital-D key `Description` used by the extraction prompt, so this
module-looking mapping yields the empty list. -/
theorem c6_lowercase_description_counterexample :
    parseLLMOutput
      ("\x7b\"module\":\"A\",\"description\":\"d\",\"submodules\":\x7b\x7d\x7d").toList
      = [] := by decide

/-- C6 (amended): a mapping with a `module` key and the capital-D
`Description` key and no list value is wrapped as a single-element list. -/
theorem c6_capital_description_wrapped :
    parseLLMOutput
      ("\x7b\"module\":\"A\",\"Description\":\"d\",\"submodules\":\x7b\x7d\x7d").toList
      = [.obj [("module".toList, .str "A".toList),
               ("Description".toList, .str "d".toList),
               ("submodules".toList, .obj [])]] := by decide

set_option maxRecDepth 100000 in
/-- C4 (witness): the oversize theorem at the character-length tokenizer,
budget 1, input `hello`, and a Gateway always answering `[0]`. -/
theorem c4_oversize_returns_raw_list_witness :
    (pyStrip "hello".toList ≠ [] ∧
      List.length (extractRawModulesFromChunks List.length
        (fun _ _ => "[0]".toList) 1 "hello".toList).1 > 1) ∧
    extract List.length (fun _ _ => "[0]".toList) 1 "hello".toList =
      ((extractRawLoop (fun _ _ => "[0]".toList)
          (chunkTextByTokens List.length "hello".toList 1)).1,
       (chunkTextByTokens List.length "hello".toList 1).map
          (fun c => (c, getExtractionPrompt))) :=
  ⟨⟨by decide, by decide⟩,
   c4_oversize_returns_raw_list List.length (fun _ _ => "[0]".toList) 1 "hello".toList
     (by decide) (by decide)⟩

set_option maxRecDepth 100000 in
/-- C5 (witness): the all-empty-responses theorem at the character-length
tokenizer, budget 5, input `hi`, and a Gateway always answering `[]`. -/
theorem c5_all_empty_responses_witness :
    (pyStrip "hi".toList ≠ [] ∧
      ∀ c ∈ chunkTextByTokens List.length "hi".toList 5,
        (fun (_ _ : Chars) => "[]".toList) c getExtractionPrompt = "[]".toList) ∧
    extract List.length (fun _ _ => "[]".toList) 5 "hi".toList =
      ([], (chunkTextByTokens List.length "hi".toList 5).map
        (fun c => (c, getExtractionPrompt))) :=
  ⟨⟨by decide, by decide⟩,
   c5_all_empty_responses List.length (fun _ _ => "[]".toList) 5 "hi".toList
     (by decide) (by decide)⟩

set_option maxRecDepth 100000 in
/-- C10 (witness): the Pass-2-failure theorem at the zero tokenizer, budget
0, input `hi`, and a Gateway that answers `[0]` to the extraction prompt
but fails (empty string) on the synthesis prompt. -/
theorem c10_pass2_failure_discards_raw_witness :
    (pyStrip "hi".toList ≠ [] ∧
     ¬ (fun (_ : Chars) => 0) (extractRawModulesFromChunks (fun _ => 0)
        (fun _ p => if p = getSynthesisPrompt then [] else "[0]".toList)
        0 "hi".toList).1 > 0 ∧
     (extractRawModulesFromChunks (fun _ => 0)
        (fun _ p => if p = getSynthesisPrompt then [] else "[0]".toList)
        0 "hi".toList).1 ≠ [] ∧
     (extractRawModulesFromChunks (fun _ => 0)
        (fun _ p => if p = getSynthesisPrompt then [] else "[0]".toList)
        0 "hi".toList).1 ≠ "[]".toList ∧
     parseLLMOutput ((fun (_ : Chars) p =>
        if p = getSynthesisPrompt then [] else "[0]".toList)
       (extractRawModulesFromChunks (fun _ => 0)
        (fun _ p => if p = getSynthesisPrompt then [] else "[0]".toList)
        0 "hi".toList).1 getSynthesisPrompt) = []) ∧
    extract (fun _ => 0)
        (fun _ p => if p = getSynthesisPrompt then [] else "[0]".toList) 0 "hi".toList =
      ([], (extractRawModulesFromChunks (fun _ => 0)
          (fun _ p => if p = getSynthesisPrompt then [] else "[0]".toList)
          0 "hi".toList).2 ++
        [((extractRawModulesFromChunks (fun _ => 0)
          (fun _ p => if p = getSynthesisPrompt then [] else "[0]".toList)
          0 "hi".toList).1, getSynthesisPrompt)]) :=
  ⟨⟨by decide, by decide, by decide, by decide, by decide⟩,
   c10_pass2_failure_discards_raw (fun _ => 0)
     (fun _ p => if p = getSynthesisPrompt then [] else "[0]".toList) 0 "hi".toList
     (by decide) (by decide) (by decide) (by decide) (by decide)⟩
